import Mathlib

/-!
Verification development for the redactor library (text redaction and
restoration engine).  The repository ships only the usage examples and the
packaging metadata; the engine module itself is not part of the available
sources, so every engine definition below is modelled from the design
document (spec.md), faithful to its words.  Texts are modelled as lists of
characters (Python strings are sequences of code points), scores as
rational numbers, and all machine behaviour as pure executable functions.
-/

namespace Redact

/-! ## Basic character-list utilities -/

/-- Whitespace test used by normalization and tokenization. -/
def isWS (c : Char) : Bool :=
  c = ' ' || c = '\t' || c = '\n' || c = '\r'

/-- Contiguous segment of a text between two character offsets. -/
def slice (t : List Char) (a b : Nat) : List Char :=
  (t.drop a).take (b - a)

/-- Replace the segment between offsets a and b with a replacement list. -/
def splice (t : List Char) (a b : Nat) (r : List Char) : List Char :=
  t.take a ++ r ++ t.drop b

/-- Test whether the first list is an initial segment of the second. -/
def startsWith : List Char → List Char → Bool
  | [], _ => true
  | _ :: _, [] => false
  | a :: as, b :: bs => a = b && startsWith as bs

/-- Offset of the leftmost occurrence of a pattern inside a text, if any. -/
def findSub (pat : List Char) : List Char → Option Nat
  | [] => if startsWith pat [] then some 0 else none
  | c :: t => if startsWith pat (c :: t) then some 0 else (findSub pat t).map (· + 1)

/-- Starting offsets of the leftmost non-overlapping occurrences of a word,
scanning left to right and continuing after each full match, as the exact
string matcher of the library does.  The fuel argument bounds the scan. -/
def occsAux (w : List Char) : Nat → List Char → Nat → List Nat
  | 0, _, _ => []
  | _ + 1, [], _ => []
  | fuel + 1, c :: t, pos =>
    if startsWith w (c :: t) && !w.isEmpty then
      pos :: occsAux w fuel ((c :: t).drop w.length) (pos + w.length)
    else
      occsAux w fuel t (pos + 1)

/-- Starting offsets of the non-overlapping occurrences of w inside t. -/
def occsIn (t w : List Char) : List Nat :=
  occsAux w t.length t 0

/-- Decimal digit helper; the fuel bounds the number of digits and one
unit of fuel is spent per digit, so any fuel above the digit count is
enough. -/
def natDigitsAux : Nat → Nat → List Char
  | 0, _ => []
  | fuel + 1, n =>
    if n < 10 then [Nat.digitChar n]
    else natDigitsAux fuel (n / 10) ++ [Nat.digitChar (n % 10)]

/-- Decimal digit list of a natural number, most significant first. -/
def natDigits (n : Nat) : List Char :=
  natDigitsAux (n + 1) n

/-- Levenshtein edit distance helper; every recursive call shortens the
combined length, so fuel equal to the combined length is enough and the
fuel-exhausted value is never reached from lev below. -/
def levAux : Nat → List Char → List Char → Nat
  | 0, a, b => a.length + b.length
  | _ + 1, [], b => b.length
  | _ + 1, _ :: as, [] => as.length + 1
  | fuel + 1, a :: as, b :: bs =>
    if a = b then levAux fuel as bs
    else 1 + min (levAux fuel as (b :: bs)) (min (levAux fuel (a :: as) bs) (levAux fuel as bs))

/-- Levenshtein edit distance between two character lists. -/
def lev (a b : List Char) : Nat :=
  levAux (a.length + b.length) a b

/-- Test whether the first list is a (not necessarily contiguous)
subsequence of the second. -/
def isSubseq : List Char → List Char → Bool
  | [], _ => true
  | _ :: _, [] => false
  | a :: as, b :: bs => if a = b then isSubseq as bs else isSubseq (a :: as) bs

/-- Strip leading and trailing whitespace. -/
def trimChars (l : List Char) : List Char :=
  ((l.dropWhile isWS).reverse.dropWhile isWS).reverse

/-- Modelled from the spec: normalization of an entity surface form, the
missing engine normalizes by trimming and case folding. -/
def normChars (l : List Char) : List Char :=
  (trimChars l).map Char.toLower

/-- Tokenizer helper: split on whitespace, accumulating the current token
in reverse. -/
def tokensAux : List Char → List Char → List (List Char)
  | [], acc => if acc.isEmpty then [] else [acc.reverse]
  | c :: t, acc =>
    if isWS c then
      if acc.isEmpty then tokensAux t [] else acc.reverse :: tokensAux t []
    else tokensAux t (c :: acc)

/-- Whitespace-separated tokens of a character list. -/
def tokensOf (l : List Char) : List (List Char) :=
  tokensAux l []

/-! ## Generic stable insertion sort

A Boolean comparator le, where le a b means a may stay in front of b.
Inserting before the first element that does not have to stay in front
keeps elements with equal keys in their input order. -/

/-- Insert an element into a list, in front of the first element b with
le a b. -/
def insertBy (le : α → α → Bool) (a : α) : List α → List α
  | [] => [a]
  | b :: bs => if le a b then a :: b :: bs else b :: insertBy le a bs

/-- Stable insertion sort by a Boolean comparator. -/
def sortBy (le : α → α → Bool) : List α → List α
  | [] => []
  | a :: as => insertBy le a (sortBy le as)

/-! ## Data model (modelled from the spec) -/

/-- Modelled from the spec: a candidate span produced by a recognizer.
The design document gives fields start, end, label, text, score and the
priority of the producing recognizer; the field named end in the design is
called stop here because end is a Lean keyword.  The text field carries
the character sequence of the matched segment. -/
structure Span where
  start : Nat
  stop : Nat
  label : String
  text : List Char
  score : Rat
  priority : Int
deriving DecidableEq, Repr

/-- Modelled from the spec: one hit of the external statistical detector,
which exposes detect(text) as a sequence of (label, start, end, score). -/
structure DetHit where
  label : String
  start : Nat
  stop : Nat
  score : Rat

/-- Modelled from the spec: a user-supplied recognizer.  Its internal
pattern machinery (regular expressions) is an external primitive outside
the core, so it is abstracted as an opaque scan function yielding
(start, end, score) triples for its single label. -/
structure Recognizer where
  label : String
  priority : Int
  scanFn : String → List (Nat × Nat × Rat)

/-- Modelled from the spec: the Redactor configuration, holding the
external statistical detector, the user-added recognizers, the custom
word list, the optional allow-list of enabled entity labels, and the
fuzzy-matching strength (0 = disabled). -/
structure Config where
  detect : String → List DetHit
  recognizers : List Recognizer
  customWords : List String
  enabled : Option (List String)
  fuzzy : Nat

/-- Build a span over a text, recording the matched segment as its text. -/
def mkSpan (t : List Char) (a b : Nat) (lab : String) (sc : Rat) (pr : Int) : Span :=
  { start := a, stop := b, label := lab, text := slice t a b, score := sc, priority := pr }

/-- Well-formedness of a span over a document: nonempty and in bounds.
The design document requires recognizers to reject zero-length and
inverted spans at the source. -/
def validB (t : List Char) (s : Span) : Bool :=
  decide (s.start < s.stop) && decide (s.stop ≤ t.length)

/-- Test whether a label is active under the configured allow-list. -/
def enabledB (cfg : Config) (lab : String) : Bool :=
  match cfg.enabled with
  | none => true
  | some l => l.contains lab

/-- Modelled from the spec: registry fan-out.  The missing engine runs the
statistical detector and every enabled recognizer, wraps each hit into a
span carrying the source priority (detector hits use the default priority
0, custom words a fixed high score 1 and priority 1 under the label
CUSTOM), concatenates all candidates, and rejects invalid spans at the
source. -/
def scanAll (cfg : Config) (t : List Char) : List Span :=
  let det := (cfg.detect (String.mk t)).filterMap (fun h =>
    if enabledB cfg h.label then some (mkSpan t h.start h.stop h.label h.score 0) else none)
  let recs := (cfg.recognizers.map (fun r =>
    if enabledB cfg r.label then
      (r.scanFn (String.mk t)).map (fun q => mkSpan t q.1 q.2.1 r.label q.2.2 r.priority)
    else [])).flatten
  let cust := (cfg.customWords.map (fun w =>
    (occsIn t w.data).map (fun i => mkSpan t i (i + w.data.length) "CUSTOM" 1 1))).flatten
  (det ++ recs ++ cust).filter (validB t)

/-! ## Span resolver (modelled from the spec) -/

/-- Sort key of an indexed candidate: priority descending, score
descending, span length descending, start ascending, and the original
candidate position as final stable tie-break, encoded lexicographically
with negations for the descending components. -/
def candKey (c : Nat × Span) : Lex (Int × Lex (Rat × Lex (Int × Lex (Nat × Nat)))) :=
  toLex (-c.2.priority,
    toLex (-c.2.score,
      toLex (-(Int.ofNat (c.2.stop - c.2.start)),
        toLex (c.2.start, c.1))))

/-- Boolean comparator on indexed candidates induced by the sort key. -/
def candLE (a b : Nat × Span) : Bool :=
  decide (candKey a ≤ candKey b)

/-- Overlap test: two spans overlap when they share at least one character
offset; adjacent spans do not overlap. -/
def overlapsB (a b : Span) : Bool :=
  decide (a.start < b.stop) && decide (b.start < a.stop)

/-- Greedy scan over the sorted candidates: accept a span when it overlaps
no previously accepted span, otherwise discard it. -/
def greedyPick : List Span → List Span → List Span
  | acc, [] => acc
  | acc, s :: rest =>
    if acc.any (fun u => overlapsB u s) then greedyPick acc rest
    else greedyPick (acc ++ [s]) rest

/-- Modelled from the spec: the span resolver of the missing engine sorts
all candidates by (priority descending, score descending, length
descending, start ascending) with the original candidate order as stable
tie-break, then greedily accepts each span that overlaps no previously
accepted span. -/
def resolve (spans : List Span) : List Span :=
  greedyPick [] ((sortBy candLE spans.enum).map (fun c => c.2))

/-- Reference order on indexed candidates, stated as a relation. -/
def refRel (a b : Nat × Span) : Prop :=
  candKey a ≤ candKey b

instance : DecidableRel refRel := fun a b =>
  inferInstanceAs (Decidable (candKey a ≤ candKey b))

/-- Reference resolver from the claim text: sort the indexed candidates by
the stated total order using the library insertion sort, then run the same
greedy acceptance scan. -/
def resolveRef (spans : List Span) : List Span :=
  greedyPick [] ((List.insertionSort refRel spans.enum).map (fun c => c.2))

/-- Comparator placing spans in ascending start order, used by the
orchestrator when walking the accepted spans. -/
def startLE (a b : Span) : Bool :=
  decide (a.start ≤ b.start)

/-! ## Fuzzy consolidator (modelled from the spec) -/

/-- Two tokens are shared when one elides characters of the other, that
is, one is a subsequence of the other. -/
def tokMatch (x y : List Char) : Bool :=
  isSubseq x y || isSubseq y x

/-- Positional token comparison: every token pair must be shared, except
that at most budget pairs may instead differ within edit distance
strength.  Token lists of different lengths never match this way. -/
def tokListMerge (strength : Nat) : List (List Char) → List (List Char) → Nat → Bool
  | [], [], _ => true
  | x :: xs, y :: ys, budget =>
    if tokMatch x y then tokListMerge strength xs ys budget
    else if budget ≥ 1 && lev x y ≤ strength then tokListMerge strength xs ys (budget - 1)
    else false
  | _, _, _ => false

/-- Exact token-level subsequence test between token lists. -/
def tokSubseqOf : List (List Char) → List (List Char) → Bool
  | [], _ => true
  | _ :: _, [] => false
  | x :: xs, y :: ys => if x = y then tokSubseqOf xs ys else tokSubseqOf (x :: xs) ys

/-- Modelled from the spec: the pairwise merge test of the missing fuzzy
consolidator.  A pair merges when the normalized forms share all tokens
except for bounded edit distance (at most the strength) on at most one
token, or when one normalized form is a token-subsequence of the other.
The design document leaves the exact similarity policy open and requires
only that it be consistent with the documented example outputs. -/
def fuzzyMergeB (strength : Nat) (a b : List Char) : Bool :=
  tokListMerge strength (tokensOf (normChars a)) (tokensOf (normChars b)) 1 ||
    tokSubseqOf (tokensOf (normChars a)) (tokensOf (normChars b)) ||
    tokSubseqOf (tokensOf (normChars b)) (tokensOf (normChars a))

/-- Modelled from the spec: entity identity test between two accepted
spans.  In exact mode (strength 0) two spans are the same entity when
their trimmed case-folded texts agree under the same label; in fuzzy mode
a pair merges under the fuzzy test, scoped to the label. -/
def samePred (cfg : Config) (a b : Span) : Bool :=
  decide (a.label = b.label) &&
    (if cfg.fuzzy = 0 then decide (normChars a.text = normChars b.text)
     else fuzzyMergeB cfg.fuzzy a.text b.text)

/-- Root of the class of index x in a union-find value: the stored entry,
or x itself outside the range. -/
def eidOf (uf : List Nat) (x : Nat) : Nat :=
  uf.getD x x

/-- One union-find step over a candidate pair of indices: when the pair
merges and the classes differ, both classes are relabelled to the smaller
of the two roots. -/
def ufStep (pred : Nat → Nat → Bool) (uf : List Nat) (p : Nat × Nat) : List Nat :=
  if pred p.1 p.2 && !(eidOf uf p.1 == eidOf uf p.2) then
    uf.map (fun v => if v = eidOf uf p.1 ∨ v = eidOf uf p.2
      then min (eidOf uf p.1) (eidOf uf p.2) else v)
  else uf

/-- All index pairs (i, j) with i < j < n, in document order. -/
def allPairs (n : Nat) : List (Nat × Nat) :=
  ((List.range n).map (fun i =>
    ((List.range n).filter (fun j => decide (i < j))).map (fun j => (i, j)))).flatten

/-- Merge test lifted to indices of the accepted span list. -/
def idxPred (cfg : Config) (accepted : List Span) (i j : Nat) : Bool :=
  match accepted.get? i, accepted.get? j with
  | some a, some b => samePred cfg a b
  | _, _ => false

/-- Modelled from the spec: the consolidator of the missing engine assigns
entity identities by union-find over all candidate pairs, evaluated in
document order of first appearance.  The result maps each accepted span
position to the root of its cluster; the root is always the position of
the first-seen member of the cluster. -/
def consolidate (cfg : Config) (accepted : List Span) : List Nat :=
  (allPairs accepted.length).foldl (ufStep (idxPred cfg accepted)) (List.range accepted.length)

/-- Modelled from the spec: the canonical text of the cluster of the span
at position i is the original text of the root member. -/
def canonicalText (accepted : List Span) (eids : List Nat) (i : Nat) : List Char :=
  match accepted.get? (eidOf eids i) with
  | some s => s.text
  | none => []

/-- Exact-mode identity key of the accepted span at a position: its label
together with its trimmed case-folded text. -/
def keyOfE (accepted : List Span) (x : Nat) : String × List Char :=
  match accepted.get? x with
  | some s => (s.label, normChars s.text)
  | none => ("", [])

/-- Count of occurrences in a pair list that introduce a new entity (not
among prev and not seen earlier in the list) whose span carries the given
label; this is the number of times the per-label counter of the default
generator is incremented while the list is processed. -/
def newFirsts (prev : List Nat) : List (Span × Nat) → String → Nat
  | [], _ => 0
  | (s, e) :: rest, L =>
    if e ∈ prev then newFirsts prev rest L
    else (if s.label = L then 1 else 0) + newFirsts (e :: prev) rest L

/-! ## Placeholder generator and orchestrator (modelled from the spec) -/

/-- State threaded through placeholder generation: the per-entity memo
table of the orchestrator plus the private state of the generator. -/
structure GenSt (σ : Type) where
  memo : List (Nat × List Char)
  inner : σ

/-- Modelled from the spec: the orchestrator walks the accepted spans in
ascending start order and computes the display text of each occurrence,
memoized per entity identifier; only the first occurrence of an entity
invokes the generator, with the label and original text of that
occurrence. -/
def runGenAux {σ : Type} (gen : σ → String → String → String × σ) :
    List (Span × Nat) → GenSt σ → List (List Char) × GenSt σ
  | [], st => ([], st)
  | (s, e) :: rest, st =>
    match st.memo.lookup e with
    | some d =>
      let out := runGenAux gen rest st
      (d :: out.1, out.2)
    | none =>
      let g := gen st.inner s.label (String.mk s.text)
      let st1 : GenSt σ := { memo := st.memo ++ [(e, g.1.data)], inner := g.2 }
      let out := runGenAux gen rest st1
      (g.1.data :: out.1, out.2)

/-- Modelled from the spec: the default placeholder generator renders
bracket, label, underscore, a 1-based per-label counter, bracket; its
private state is the per-label counter table. -/
def counterGen (c : List (String × Nat)) (lab : String) (_orig : String) : String × List (String × Nat) :=
  let n := (c.lookup lab).getD 0 + 1
  (String.mk ('[' :: lab.data ++ '_' :: natDigits n ++ [']']), (lab, n) :: c)

/-- Initial per-label counter table of the default generator. -/
def counterInit : List (String × Nat) := []

/-- Accepted spans of one redaction run, in ascending start order. -/
def pipelineAccepted (cfg : Config) (t : List Char) : List Span :=
  sortBy startLE (resolve (scanAll cfg t))

/-- Entity identifier assignment of one redaction run. -/
def pipelineEids (cfg : Config) (t : List Char) : List Nat :=
  consolidate cfg (pipelineAccepted cfg t)

/-- Occurrence list of one redaction run: each accepted span, in ascending
start order, paired with its entity identifier. -/
def pipelinePairs (cfg : Config) (t : List Char) : List (Span × Nat) :=
  (pipelineAccepted cfg t).zip
    ((List.range (pipelineAccepted cfg t).length).map (eidOf (pipelineEids cfg t)))

/-- Display texts of one redaction run, one per accepted occurrence, under
a caller-supplied placeholder generator. -/
def pipelineDisplays {σ : Type} (init : σ) (gen : σ → String → String → String × σ)
    (cfg : Config) (t : List Char) : List (List Char) :=
  (runGenAux gen (pipelinePairs cfg t) { memo := [], inner := init }).1

/-- Modelled from the spec: rewrite the text by substituting the range of
each accepted span with its display text, applied back to front (highest
start first) so earlier offsets stay valid.  The list is in ascending
start order, so the right fold applies the last span first. -/
def spliceAll (t : List Char) : List (Span × List Char) → List Char
  | [] => t
  | (s, d) :: rest => splice (spliceAll t rest) s.start s.stop d

/-- Modelled from the spec: the full redaction run under an arbitrary
placeholder generator: scan, resolve, consolidate, generate displays,
record the mapping in ascending occurrence order, and rewrite the text
back to front. -/
def redactWith {σ : Type} (init : σ) (gen : σ → String → String → String × σ)
    (cfg : Config) (txt : String) : String × List (String × String × String) :=
  (String.mk (spliceAll txt.data
      ((pipelineAccepted cfg txt.data).zip (pipelineDisplays init gen cfg txt.data))),
   ((pipelineAccepted cfg txt.data).zip (pipelineDisplays init gen cfg txt.data)).map
     (fun p => (String.mk p.2, String.mk p.1.text, p.1.label)))

/-- Modelled from the spec: the primary redact operation, using the
default counter-based placeholder generator. -/
def redact (cfg : Config) (txt : String) : String × List (String × String × String) :=
  redactWith counterInit counterGen cfg txt

/-! ## Restoration (modelled from the spec) -/

/-- Replace the leftmost occurrence of a pattern, when present; a text
without the pattern is returned unchanged. -/
def replaceFirst (t pat rep : List Char) : List Char :=
  match findSub pat t with
  | none => t
  | some i => t.take i ++ rep ++ t.drop (i + pat.length)

/-- Comparator placing longer display texts first; the stable sort keeps
entries with equal display length in mapping order. -/
def lenGE (a b : String × String × String) : Bool :=
  decide (b.1.data.length ≤ a.1.data.length)

/-- Processing order of the mapping during restoration: longest display
text first, stable. -/
def restoreOrder (m : List (String × String × String)) : List (String × String × String) :=
  sortBy lenGE m

/-- Modelled from the spec: the restore operation replaces each display
text occurrence with its paired original text, processing mapping entries
longest display first; entries whose display is absent leave the text
unchanged. -/
def restore (txt : String) (m : List (String × String × String)) : String :=
  String.mk ((restoreOrder m).foldl (fun t e => replaceFirst t e.1.data e.2.1.data) txt.data)

/-! ## Concrete demonstration configurations -/

/-- Detector returning no hits, for configurations that rely on custom
words only. -/
def noDet : String → List DetHit := fun _ => []

/-- Configuration redacting the single custom word Bob. -/
def cfgCustom : Config :=
  { detect := noDet, recognizers := [], customWords := ["Bob"], enabled := none, fuzzy := 0 }

/-- Document of the fuzzy-matching example. -/
def exText : String := "John Smith, Jon Smyth, Johnny Smith, Mary Johnson"

/-- Detector recognizing the four person names of the fuzzy example. -/
def exDet : String → List DetHit := fun t =>
  if t = exText then
    [ { label := "PERSON", start := 0, stop := 10, score := 1 },
      { label := "PERSON", start := 12, stop := 21, score := 1 },
      { label := "PERSON", start := 23, stop := 35, score := 1 },
      { label := "PERSON", start := 37, stop := 49, score := 1 } ]
  else []

/-- Configuration of the fuzzy-matching example, strength 1. -/
def cfgFuzzy : Config :=
  { detect := exDet, recognizers := [], customWords := [], enabled := none, fuzzy := 1 }

/-- Configuration of the exact-mode example, same detector, fuzzy off. -/
def cfgExact : Config :=
  { detect := exDet, recognizers := [], customWords := [], enabled := none, fuzzy := 0 }

/-- Pairwise absence of overlap, as a proposition. -/
def NoOv (a b : Span) : Prop := overlapsB a b = false

/-- Structural invariant of the union-find value: every stored root is at
most its index and roots are fixed points. -/
def UFInv (uf : List Nat) : Prop :=
  ∀ x, x < uf.length → eidOf uf x ≤ x ∧ eidOf uf (eidOf uf x) = eidOf uf x

/-- Key invariant: the key of every root agrees with the key of every
member of its class. -/
def UFKeyInv {κ : Type} (key : Nat → κ) (uf : List Nat) : Prop :=
  ∀ x, x < uf.length → key (eidOf uf x) = key x

/-- Proper substring relation between character lists: a occurs inside b
and differs from b. -/
def ProperSub (a b : List Char) : Prop :=
  a ≠ b ∧ ∃ u v, u ++ a ++ v = b

/-- Alternative placeholder generator used to demonstrate the override
extension point: angle bracket, label, hash, per-label counter, angle
bracket, with its own private counter table. -/
def customGen (c : List (String × Nat)) (lab : String) (_orig : String) : String × List (String × Nat) :=
  (String.mk ('<' :: lab.data ++ '#' :: natDigits ((c.lookup lab).getD 0 + 1) ++ ['>']),
    (lab, (c.lookup lab).getD 0 + 1) :: c)

/-! ## Piece decomposition used to analyse the round trip

The rewritten text alternates segments of the original document with
spliced-in display texts.  The analysis below tracks this alternation as a
list of pieces, each either a plain segment or a display with its pending
original text. -/

/-- Absence of both square brackets from a character list. -/
def BracketFree (l : List Char) : Prop :=
  '[' ∉ l ∧ ']' ∉ l

instance decBracketFree (l : List Char) : Decidable (BracketFree l) :=
  decidable_of_iff (('[' ∉ l) ∧ (']' ∉ l)) Iff.rfl

/-- Shape of a default placeholder: an opening bracket, a bracket-free
body, and a closing bracket. -/
def Atomic (d : List Char) : Prop :=
  ∃ body, d = '[' :: body ++ [']'] ∧ '[' ∉ body ∧ ']' ∉ body

/-- One piece of a partially restored text: a plain segment, or a spliced
display text paired with the original text it replaces. -/
inductive Piece where
  | plain (p : List Char)
  | disp (d : List Char) (o : List Char)

/-- Flat text of a piece list, displays rendered as displays. -/
def render : List Piece → List Char
  | [] => []
  | .plain p :: r => p ++ render r
  | .disp d _ :: r => d ++ render r

/-- Flat text of a piece list with every display resolved to its
original text. -/
def renderO : List Piece → List Char
  | [] => []
  | .plain p :: r => p ++ renderO r
  | .disp _ o :: r => o ++ renderO r

/-- The displays of a piece list, in order, with their originals. -/
def disps : List Piece → List (List Char × List Char)
  | [] => []
  | .plain _ :: r => disps r
  | .disp d o :: r => (d, o) :: disps r

/-- Well-formedness of one piece: plain segments and originals are
bracket-free, displays are atomic. -/
def PieceOK : Piece → Prop
  | .plain p => BracketFree p
  | .disp d o => Atomic d ∧ BracketFree o

/-- Well-formedness of a piece list. -/
def WFPieces (ps : List Piece) : Prop :=
  ∀ pc ∈ ps, PieceOK pc

/-- Resolve the first display equal to d into its original text. -/
def replaceDisp (d : List Char) : List Piece → List Piece
  | [] => []
  | .plain p :: r => .plain p :: replaceDisp d r
  | .disp d0 o :: r => if d0 = d then .plain o :: r else .disp d0 o :: replaceDisp d r

/-- Original text paired with the first display equal to d, if any. -/
def firstO (d : List Char) : List Piece → Option (List Char)
  | [] => none
  | .plain _ :: r => firstO d r
  | .disp d0 o :: r => if d0 = d then some o else firstO d r

/-- Offset of the first display equal to d in the rendered text. -/
def posFirst (d : List Char) : List Piece → Option Nat
  | [] => none
  | .plain p :: r => (posFirst d r).map (· + p.length)
  | .disp d0 _ :: r => if d0 = d then some 0 else (posFirst d r).map (· + d0.length)

/-- Piece decomposition of the rewritten text: for each span (paired with
its display) a plain gap from the cursor to the span start, then the
display with the original segment, and finally the tail of the document. -/
def buildPieces (t : List Char) (pos : Nat) : List (Span × List Char) → List Piece
  | [] => [.plain (t.drop pos)]
  | (s, d) :: rest =>
    .plain (slice t pos s.start) :: .disp d (slice t s.start s.stop) ::
      buildPieces t s.stop rest

/-- Chain condition on a span-display list relative to a cursor: spans
are in order, nonempty, in bounds, and pairwise disjoint. -/
def ChainOK (t : List Char) : Nat → List (Span × List Char) → Prop
  | _, [] => True
  | pos, (s, _) :: rest =>
    pos ≤ s.start ∧ s.start < s.stop ∧ s.stop ≤ t.length ∧ ChainOK t s.stop rest

/-! ## Lemmas about the stable insertion sort -/

theorem insertBy_perm (le : α → α → Bool) (a : α) (l : List α) :
    (insertBy le a l).Perm (a :: l) := by
  induction l with
  | nil => simp [insertBy]
  | cons b bs ih =>
    by_cases h : le a b = true
    · simp [insertBy, h]
    · simp only [insertBy, h, Bool.false_eq_true, if_false]
      exact ((ih.cons b).trans (List.Perm.swap a b bs))

theorem sortBy_perm (le : α → α → Bool) (l : List α) :
    (sortBy le l).Perm l := by
  induction l with
  | nil => simp [sortBy]
  | cons a as ih =>
    exact (insertBy_perm le a (sortBy le as)).trans (ih.cons a)

theorem mem_insertBy {le : α → α → Bool} {a x : α} {l : List α} :
    x ∈ insertBy le a l ↔ x = a ∨ x ∈ l := by
  have h := @List.Perm.mem_iff _ x _ _ (insertBy_perm le a l)
  simpa using h

theorem insertBy_pairwise {le : α → α → Bool} {R : α → α → Prop}
    (hle : ∀ a b, le a b = true → R a b)
    (htot : ∀ a b, le a b = false → R b a)
    (htrans : ∀ a b c, R a b → R b c → R a c)
    (a : α) {l : List α} (h : l.Pairwise R) :
    (insertBy le a l).Pairwise R := by
  induction l with
  | nil => simp [insertBy]
  | cons b bs ih =>
    rcases List.pairwise_cons.mp h with ⟨hb, hbs⟩
    rw [insertBy]
    by_cases hab : le a b = true
    · rw [if_pos hab]
      refine List.pairwise_cons.mpr ⟨?_, h⟩
      intro x hx
      rcases List.mem_cons.mp hx with rfl | hx
      · exact hle _ _ hab
      · exact htrans _ _ _ (hle _ _ hab) (hb x hx)
    · rw [if_neg hab]
      rw [Bool.not_eq_true] at hab
      refine List.pairwise_cons.mpr ⟨?_, ih hbs⟩
      intro x hx
      rcases mem_insertBy.mp hx with rfl | hx
      · exact htot _ _ hab
      · exact hb x hx

theorem sortBy_pairwise {le : α → α → Bool} {R : α → α → Prop}
    (hle : ∀ a b, le a b = true → R a b)
    (htot : ∀ a b, le a b = false → R b a)
    (htrans : ∀ a b c, R a b → R b c → R a c)
    (l : List α) : (sortBy le l).Pairwise R := by
  induction l with
  | nil => simp [sortBy]
  | cons a as ih =>
    exact insertBy_pairwise hle htot htrans a ih

/-- Stability of the sort for a class of elements sharing one key, for a
comparator that orders by descending key: inserting an element of the
class into a list sorted by descending key keeps the class in order. -/
theorem insertBy_filter_key {key : α → Nat} {P : α → Bool} {k : Nat}
    (hP : ∀ x, P x = true → key x = k) (a : α) (l : List α)
    (hs : l.Pairwise (fun x y => key y ≤ key x)) :
    (insertBy (fun x y => decide (key y ≤ key x)) a l).filter P =
      if P a then a :: l.filter P else l.filter P := by
  induction l with
  | nil =>
    by_cases hpa : P a = true <;> simp [insertBy, hpa]
  | cons b bs ih =>
    rcases List.pairwise_cons.mp hs with ⟨hb, hbs⟩
    by_cases hab : key b ≤ key a
    · simp only [insertBy, decide_eq_true hab, if_true]
      by_cases hpa : P a = true <;> simp [hpa]
    · have hd : (decide (key b ≤ key a)) = false := by
        exact decide_eq_false hab
      simp only [insertBy, hd, Bool.false_eq_true, if_false]
      by_cases hpa : P a = true
      · have hpb : P b = false := by
          by_contra hc
          rw [Bool.not_eq_false] at hc
          have := hP b hc
          have := hP a hpa
          omega
        rw [List.filter_cons, List.filter_cons]
        simp only [hpb, Bool.false_eq_true, if_false]
        exact ih hbs
      · rw [List.filter_cons, List.filter_cons]
        by_cases hpb : P b = true
        · simp only [hpb, if_true]
          rw [ih hbs]
          simp [hpa]
        · simp only [hpb, Bool.false_eq_true, if_false]
          rw [ih hbs]

/-- Stability of the descending-key insertion sort: the subsequence of
elements sharing one key is unchanged. -/
theorem sortBy_filter_key {key : α → Nat} {P : α → Bool} {k : Nat}
    (hP : ∀ x, P x = true → key x = k) (l : List α) :
    (sortBy (fun x y => decide (key y ≤ key x)) l).filter P = l.filter P := by
  induction l with
  | nil => simp [sortBy]
  | cons a as ih =>
    have hs : (sortBy (fun x y => decide (key y ≤ key x)) as).Pairwise
        (fun x y => key y ≤ key x) := by
      refine sortBy_pairwise ?_ ?_ ?_ as
      · intro a b h
        exact of_decide_eq_true h
      · intro a b h
        have := of_decide_eq_false h
        omega
      · intro a b c h1 h2
        omega
    rw [sortBy, insertBy_filter_key hP a _ hs, ih, List.filter_cons]

/-! ## Lemmas about the greedy acceptance scan -/

theorem noOv_symm : ∀ {a b : Span}, NoOv a b → NoOv b a := by
  intro a b h
  unfold NoOv overlapsB at *
  rcases Bool.and_eq_false_iff.mp h with h1 | h1 <;>
    simp only [decide_eq_false_iff_not] at h1 <;>
    simp [Bool.and_eq_false_iff, decide_eq_false_iff_not] <;> omega

theorem greedyPick_pairwise (l : List Span) :
    ∀ acc : List Span, acc.Pairwise NoOv → (greedyPick acc l).Pairwise NoOv := by
  induction l with
  | nil => intro acc h; simpa [greedyPick] using h
  | cons s rest ih =>
    intro acc h
    by_cases hany : acc.any (fun u => overlapsB u s) = true
    · simpa [greedyPick, hany] using ih acc h
    · have hall : ∀ u ∈ acc, overlapsB u s = false := by
        intro u hu
        rw [Bool.not_eq_true] at hany
        have := List.any_eq_false.mp hany u hu
        simpa using this
      have hacc : (acc ++ [s]).Pairwise NoOv := by
        rw [List.pairwise_append]
        refine ⟨h, List.pairwise_singleton _ _, ?_⟩
        intro a ha b hb
        rw [List.mem_singleton] at hb
        subst hb
        exact hall a ha
      simpa [greedyPick, hany] using ih (acc ++ [s]) hacc

theorem greedyPick_subset (l : List Span) :
    ∀ acc : List Span, ∀ x ∈ greedyPick acc l, x ∈ acc ∨ x ∈ l := by
  induction l with
  | nil => intro acc x hx; exact Or.inl (by simpa [greedyPick] using hx)
  | cons s rest ih =>
    intro acc x hx
    by_cases hany : acc.any (fun u => overlapsB u s) = true
    · rcases ih acc x (by simpa [greedyPick, hany] using hx) with h | h
      · exact Or.inl h
      · exact Or.inr (List.mem_cons_of_mem _ h)
    · rcases ih (acc ++ [s]) x (by simpa [greedyPick, hany] using hx) with h | h
      · rcases List.mem_append.mp h with h2 | h2
        · exact Or.inl h2
        · rw [List.mem_singleton] at h2
          exact Or.inr (h2 ▸ List.mem_cons_self _ _)
      · exact Or.inr (List.mem_cons_of_mem _ h)

theorem resolve_pairwise (spans : List Span) : (resolve spans).Pairwise NoOv :=
  greedyPick_pairwise _ [] (List.Pairwise.nil)

theorem pipelineAccepted_pairwise (cfg : Config) (t : List Char) :
    (pipelineAccepted cfg t).Pairwise NoOv := by
  unfold pipelineAccepted
  exact ((sortBy_perm startLE _).symm).pairwise (resolve_pairwise _)
    (fun {x y} h => noOv_symm h)

/-! ## Bridge between the hand-rolled sort and the library insertion sort -/

theorem insertBy_eq_orderedInsert {r : α → α → Prop} [DecidableRel r] {le : α → α → Bool}
    (hiff : ∀ a b, le a b = true ↔ r a b) (a : α) (l : List α) :
    insertBy le a l = List.orderedInsert r a l := by
  induction l with
  | nil => rfl
  | cons b bs ih =>
    by_cases h : r a b
    · rw [insertBy, List.orderedInsert, if_pos ((hiff a b).mpr h), if_pos h]
    · rw [insertBy, List.orderedInsert, if_neg h, ih]
      have : le a b = false := by
        rw [← Bool.not_eq_true]
        intro hc
        exact h ((hiff a b).mp hc)
      rw [this]
      simp

theorem sortBy_eq_insertionSort {r : α → α → Prop} [DecidableRel r] {le : α → α → Bool}
    (hiff : ∀ a b, le a b = true ↔ r a b) (l : List α) :
    sortBy le l = List.insertionSort r l := by
  induction l with
  | nil => rfl
  | cons a as ih =>
    rw [sortBy, List.insertionSort, ih, insertBy_eq_orderedInsert hiff]

theorem candLE_iff (a b : Nat × Span) : candLE a b = true ↔ refRel a b := by
  unfold candLE refRel
  exact decide_eq_true_iff

instance : IsTotal (Nat × Span) refRel :=
  ⟨fun a b => le_total (candKey a) (candKey b)⟩

instance : IsTrans (Nat × Span) refRel :=
  ⟨fun _ _ _ h1 h2 => le_trans h1 h2⟩

/-! ## Claim C2 -/

/-- C2: within one document, the accepted spans produced by the span
resolver are pairwise non-overlapping, where overlap means sharing at
least one character offset and merely adjacent spans (stop of one equal to
start of the next) do not overlap. -/
theorem C2_accepted_spans_non_overlapping :
    (∀ spans : List Span, (resolve spans).Pairwise NoOv) ∧
    (∀ (cfg : Config) (t : List Char), (pipelineAccepted cfg t).Pairwise NoOv) ∧
    (∀ a b : Span, a.stop = b.start → overlapsB a b = false) := by
  refine ⟨resolve_pairwise, pipelineAccepted_pairwise, ?_⟩
  intro a b h
  unfold overlapsB
  rw [Bool.and_eq_false_iff]
  right
  rw [decide_eq_false_iff_not]
  omega

/-- C2 witness: a concrete instantiation, with two adjacent spans. -/
theorem C2_witness :
    (resolve [⟨0, 3, "A", [], 1, 0⟩, ⟨2, 5, "B", [], 1, 0⟩]).Pairwise NoOv ∧
      overlapsB ⟨0, 3, "A", [], 1, 0⟩ ⟨3, 5, "B", [], 1, 0⟩ = false := by
  refine ⟨C2_accepted_spans_non_overlapping.1 _, ?_⟩
  exact C2_accepted_spans_non_overlapping.2.2 ⟨0, 3, "A", [], 1, 0⟩ ⟨3, 5, "B", [], 1, 0⟩ rfl

/-! ## Claim C3 -/

/-- C3: the resolver equals the reference algorithm: stable-sort the
indexed candidates by priority descending, score descending, length
descending, start ascending, original position as final tie-break, then
greedily accept spans that overlap no previously accepted span.  The
sorted list is sorted under the stated total order and is a permutation
of the candidates, and the resolver is a pure function of its input, so
its output is identical across runs. -/
theorem C3_resolver_matches_reference :
    (∀ spans : List Span, resolve spans = resolveRef spans) ∧
    (∀ spans : List Span, (List.insertionSort refRel spans.enum).Sorted refRel) ∧
    (∀ spans : List Span, (List.insertionSort refRel spans.enum).Perm spans.enum) := by
  refine ⟨?_, ?_, ?_⟩
  · intro spans
    unfold resolve resolveRef
    rw [sortBy_eq_insertionSort candLE_iff]
  · intro spans
    exact List.sorted_insertionSort refRel _
  · intro spans
    exact List.perm_insertionSort refRel _

/-! ## Claim C4 -/

/-- C4: redaction is deterministic: two redact calls on fresh instances
with identical configuration and identical input, fuzzy mode disabled,
produce identical redacted text and identical mapping.  The engine model
is a pure function of the configuration and the text, so the result
depends on nothing else. -/
theorem C4_determinism :
    ∀ (cfg₁ cfg₂ : Config) (t₁ t₂ : String),
      cfg₁ = cfg₂ → t₁ = t₂ → cfg₁.fuzzy = 0 →
      (redact cfg₁ t₁).1 = (redact cfg₂ t₂).1 ∧ (redact cfg₁ t₁).2 = (redact cfg₂ t₂).2 := by
  intro cfg₁ cfg₂ t₁ t₂ hc ht _
  rw [hc, ht]
  exact ⟨rfl, rfl⟩

/-- C4 witness: the concrete custom-word configuration, fuzzy disabled. -/
theorem C4_witness :
    (redact cfgCustom "call Bob").1 = (redact cfgCustom "call Bob").1 ∧
      (redact cfgCustom "call Bob").2 = (redact cfgCustom "call Bob").2 :=
  C4_determinism cfgCustom cfgCustom "call Bob" "call Bob" rfl rfl rfl

/-! ## Claim C9 -/

theorem scanAll_nil (cfg : Config) : scanAll cfg [] = [] := by
  simp only [scanAll]
  rw [List.filter_eq_nil_iff]
  intro s hs
  simp only [validB, List.length_nil, Bool.and_eq_true, decide_eq_true_eq, not_and]
  omega

/-- C9: for every configuration, redacting the empty string yields the
empty string and an empty mapping, and the model is a total function, so
no error is possible. -/
theorem C9_empty_input :
    ∀ cfg : Config, redact cfg "" = ("", []) := by
  intro cfg
  have h0 : ("" : String).data = [] := rfl
  have hacc : pipelineAccepted cfg [] = [] := by
    unfold pipelineAccepted
    rw [scanAll_nil]
    rfl
  show redactWith counterInit counterGen cfg "" = ("", [])
  unfold redactWith
  rw [h0, hacc]
  rfl

/-! ## Union-find lemmas -/

theorem eidOf_lt {uf : List Nat} {x : Nat} (hx : x < uf.length) :
    eidOf uf x = uf.get ⟨x, hx⟩ := by
  unfold eidOf
  rw [List.getD_eq_getElem?_getD, List.getElem?_eq_getElem hx]
  rfl

theorem eidOf_map {f : Nat → Nat} {uf : List Nat} {x : Nat} (hx : x < uf.length) :
    eidOf (uf.map f) x = f (eidOf uf x) := by
  rw [eidOf_lt (by simpa using hx), eidOf_lt hx]
  simp

theorem ufStep_length (pred : Nat → Nat → Bool) (uf : List Nat) (p : Nat × Nat) :
    (ufStep pred uf p).length = uf.length := by
  unfold ufStep
  split
  · rw [List.length_map]
  · rfl

theorem ufFold_length (pred : Nat → Nat → Bool) (qs : List (Nat × Nat)) :
    ∀ uf : List Nat, (qs.foldl (ufStep pred) uf).length = uf.length := by
  induction qs with
  | nil => intro uf; rfl
  | cons q rest ih =>
    intro uf
    rw [List.foldl_cons, ih, ufStep_length]

theorem ufStep_keeps_eq (pred : Nat → Nat → Bool) {uf : List Nat} {x y : Nat}
    (hx : x < uf.length) (hy : y < uf.length)
    (h : eidOf uf x = eidOf uf y) (p : Nat × Nat) :
    eidOf (ufStep pred uf p) x = eidOf (ufStep pred uf p) y := by
  unfold ufStep
  split
  · rw [eidOf_map hx, eidOf_map hy, h]
  · exact h

theorem ufFold_keeps_eq (pred : Nat → Nat → Bool) (qs : List (Nat × Nat)) :
    ∀ (uf : List Nat) (x y : Nat), x < uf.length → y < uf.length →
      eidOf uf x = eidOf uf y →
      eidOf (qs.foldl (ufStep pred) uf) x = eidOf (qs.foldl (ufStep pred) uf) y := by
  induction qs with
  | nil => intro uf x y _ _ h; exact h
  | cons q rest ih =>
    intro uf x y hx hy h
    rw [List.foldl_cons]
    exact ih _ x y (by rw [ufStep_length]; exact hx) (by rw [ufStep_length]; exact hy)
      (ufStep_keeps_eq pred hx hy h q)

theorem ufStep_pair (pred : Nat → Nat → Bool) {uf : List Nat} {p : Nat × Nat}
    (hi : p.1 < uf.length) (hj : p.2 < uf.length) (hp : pred p.1 p.2 = true) :
    eidOf (ufStep pred uf p) p.1 = eidOf (ufStep pred uf p) p.2 := by
  unfold ufStep
  by_cases heq : eidOf uf p.1 = eidOf uf p.2
  · rw [if_neg (by simp [hp, heq])]
    exact heq
  · rw [if_pos (by simp [hp]; exact fun hc => absurd hc heq)]
    rw [eidOf_map hi, eidOf_map hj]
    rw [if_pos (Or.inl rfl), if_pos (Or.inr rfl)]

theorem ufInv_range (n : Nat) : UFInv (List.range n) := by
  intro x hx
  rw [List.length_range] at hx
  have h1 : eidOf (List.range n) x = x := by
    rw [eidOf_lt (by rw [List.length_range]; exact hx)]
    simp
  rw [h1]
  exact ⟨Nat.le_refl x, h1⟩

theorem ufStep_inv (pred : Nat → Nat → Bool) (uf : List Nat) (p : Nat × Nat)
    (h : UFInv uf) : UFInv (ufStep pred uf p) := by
  unfold ufStep
  split
  · intro x hx
    rw [List.length_map] at hx
    obtain ⟨hle, hidem⟩ := h x hx
    rw [eidOf_map hx]
    by_cases hv : eidOf uf x = eidOf uf p.1 ∨ eidOf uf x = eidOf uf p.2
    · rw [if_pos hv]
      have hmle : min (eidOf uf p.1) (eidOf uf p.2) ≤ eidOf uf x := by
        rcases hv with hv | hv <;> rw [hv] <;> omega
      refine ⟨le_trans hmle hle, ?_⟩
      have hmlt : min (eidOf uf p.1) (eidOf uf p.2) < uf.length :=
        lt_of_le_of_lt hmle (lt_of_le_of_lt hle hx)
      rw [eidOf_map hmlt]
      rcases min_choice (eidOf uf p.1) (eidOf uf p.2) with hm | hm
      · have hp1 : p.1 < uf.length := by
          by_contra hc
          have : eidOf uf p.1 = p.1 := by
            unfold eidOf
            rw [List.getD_eq_getElem?_getD, List.getElem?_eq_none (by omega)]
            rfl
          omega
        have := (h p.1 hp1).2
        rw [hm, this, if_pos (Or.inl rfl)]
      · have hp2 : p.2 < uf.length := by
          by_contra hc
          have : eidOf uf p.2 = p.2 := by
            unfold eidOf
            rw [List.getD_eq_getElem?_getD, List.getElem?_eq_none (by omega)]
            rfl
          omega
        have := (h p.2 hp2).2
        rw [hm, this, if_pos (Or.inr rfl)]
    · rw [if_neg hv]
      refine ⟨hle, ?_⟩
      have hvlt : eidOf uf x < uf.length := lt_of_le_of_lt hle hx
      rw [eidOf_map hvlt, hidem, if_neg hv]
  · exact h

theorem ufFold_inv (pred : Nat → Nat → Bool) (qs : List (Nat × Nat)) :
    ∀ uf : List Nat, UFInv uf → UFInv (qs.foldl (ufStep pred) uf) := by
  induction qs with
  | nil => intro uf h; exact h
  | cons q rest ih =>
    intro uf h
    rw [List.foldl_cons]
    exact ih _ (ufStep_inv pred uf q h)

theorem ufStep_key {κ : Type} (key : Nat → κ) (pred : Nat → Nat → Bool)
    (hpred : ∀ i j, pred i j = true → key i = key j)
    (uf : List Nat) (p : Nat × Nat) (_hinv : UFInv uf) (h : UFKeyInv key uf) :
    UFKeyInv key (ufStep pred uf p) := by
  unfold ufStep
  split
  · rename_i hcond
    rw [Bool.and_eq_true] at hcond
    have hkey12 : key p.1 = key p.2 := hpred _ _ hcond.1
    have hkr : ∀ z : Nat, key (eidOf uf z) = key z := by
      intro z
      by_cases hz : z < uf.length
      · exact h z hz
      · have : eidOf uf z = z := by
          unfold eidOf
          rw [List.getD_eq_getElem?_getD, List.getElem?_eq_none (by omega)]
          rfl
        rw [this]
    intro x hx
    rw [List.length_map] at hx
    rw [eidOf_map hx]
    by_cases hv : eidOf uf x = eidOf uf p.1 ∨ eidOf uf x = eidOf uf p.2
    · rw [if_pos hv]
      have hkm : key (min (eidOf uf p.1) (eidOf uf p.2)) = key (eidOf uf p.1) := by
        rcases min_choice (eidOf uf p.1) (eidOf uf p.2) with hm | hm
        · rw [hm]
        · rw [hm, hkr p.2, ← hkey12, ← hkr p.1]
      rw [hkm, hkr p.1]
      rcases hv with hv | hv
      · rw [← hkr x, hv, hkr p.1]
      · rw [← hkr x, hv, hkr p.2, ← hkey12]
    · rw [if_neg hv]
      exact h x hx
  · exact h

theorem ufFold_key {κ : Type} (key : Nat → κ) (pred : Nat → Nat → Bool)
    (hpred : ∀ i j, pred i j = true → key i = key j) (qs : List (Nat × Nat)) :
    ∀ uf : List Nat, UFInv uf → UFKeyInv key uf →
      UFKeyInv key (qs.foldl (ufStep pred) uf) := by
  induction qs with
  | nil => intro uf _ h; exact h
  | cons q rest ih =>
    intro uf hinv h
    rw [List.foldl_cons]
    exact ih _ (ufStep_inv pred uf q hinv) (ufStep_key key pred hpred uf q hinv h)

theorem mem_allPairs {n i j : Nat} : (i, j) ∈ allPairs n ↔ i < j ∧ j < n := by
  unfold allPairs
  rw [List.mem_flatten]
  constructor
  · rintro ⟨l, hl, hmem⟩
    rw [List.mem_map] at hl
    obtain ⟨a, ha, rfl⟩ := hl
    rw [List.mem_map] at hmem
    obtain ⟨b, hb, hab⟩ := hmem
    rw [List.mem_filter, List.mem_range] at hb
    rw [List.mem_range] at ha
    obtain ⟨rfl, rfl⟩ := Prod.mk.injEq .. |>.mp hab.symm |>.imp Eq.symm Eq.symm
    exact ⟨of_decide_eq_true hb.2, hb.1⟩
  · rintro ⟨hij, hj⟩
    refine ⟨((List.range n).filter (fun b => decide (i < b))).map (fun b => (i, b)), ?_, ?_⟩
    · rw [List.mem_map]
      exact ⟨i, List.mem_range.mpr (lt_trans hij hj), rfl⟩
    · rw [List.mem_map]
      exact ⟨j, List.mem_filter.mpr ⟨List.mem_range.mpr hj, decide_eq_true hij⟩, rfl⟩

theorem consolidate_length (cfg : Config) (accepted : List Span) :
    (consolidate cfg accepted).length = accepted.length := by
  unfold consolidate
  rw [ufFold_length, List.length_range]

theorem consolidate_merge (cfg : Config) (accepted : List Span) {i j : Nat}
    (hij : i < j) (hj : j < accepted.length)
    (hp : idxPred cfg accepted i j = true) :
    eidOf (consolidate cfg accepted) i = eidOf (consolidate cfg accepted) j := by
  obtain ⟨l1, l2, hsplit⟩ := List.append_of_mem (mem_allPairs.mpr ⟨hij, hj⟩)
  unfold consolidate
  rw [hsplit, List.foldl_append, List.foldl_cons]
  have hlen : (l1.foldl (ufStep (idxPred cfg accepted)) (List.range accepted.length)).length
      = accepted.length := by
    rw [ufFold_length, List.length_range]
  exact ufFold_keeps_eq _ l2 _ i j
    (by rw [ufStep_length, hlen]; omega)
    (by rw [ufStep_length, hlen]; omega)
    (ufStep_pair _ (by rw [hlen]; omega) (by rw [hlen]; exact hj) hp)

theorem consolidate_inv (cfg : Config) (accepted : List Span) :
    UFInv (consolidate cfg accepted) := by
  unfold consolidate
  exact ufFold_inv _ _ _ (ufInv_range _)

theorem consolidate_key (cfg : Config) (accepted : List Span)
    {κ : Type} (key : Nat → κ)
    (hpred : ∀ i j, idxPred cfg accepted i j = true → key i = key j) :
    UFKeyInv key (consolidate cfg accepted) := by
  unfold consolidate
  refine ufFold_key key _ hpred _ _ (ufInv_range _) ?_
  intro x hx
  rw [List.length_range] at hx
  rw [eidOf_lt (by rw [List.length_range]; exact hx)]
  simp

/-! ## Symmetry of the merge test -/

theorem levAux_symm : ∀ (fuel : Nat) (a b : List Char),
    levAux fuel a b = levAux fuel b a := by
  intro fuel
  induction fuel with
  | zero =>
    intro a b
    simp only [levAux]
    omega
  | succ f ih =>
    intro a b
    cases a with
    | nil =>
      cases b with
      | nil => rfl
      | cons y ys => simp [levAux]
    | cons x xs =>
      cases b with
      | nil => simp [levAux]
      | cons y ys =>
        rw [levAux, levAux]
        by_cases hxy : x = y
        · rw [if_pos hxy, if_pos hxy.symm, ih]
        · rw [if_neg hxy, if_neg (fun hc => hxy hc.symm),
            ih xs (y :: ys), ih (x :: xs) ys, ih xs ys]
          omega

theorem lev_symm (a b : List Char) : lev a b = lev b a := by
  unfold lev
  rw [Nat.add_comm b.length a.length, levAux_symm]

theorem tokMatch_symm (x y : List Char) : tokMatch x y = tokMatch y x := by
  rw [tokMatch, tokMatch, Bool.or_comm]

theorem tokListMerge_symm (s : Nat) :
    ∀ (xs ys : List (List Char)) (bud : Nat),
      tokListMerge s xs ys bud = tokListMerge s ys xs bud := by
  intro xs
  induction xs with
  | nil =>
    intro ys bud
    cases ys <;> rfl
  | cons x xs ih =>
    intro ys bud
    cases ys with
    | nil => rfl
    | cons y ys2 =>
      rw [tokListMerge, tokListMerge, tokMatch_symm y x, lev_symm y x,
        ih ys2 bud, ih ys2 (bud - 1)]

theorem fuzzyMergeB_symm (s : Nat) (a b : List Char) :
    fuzzyMergeB s a b = fuzzyMergeB s b a := by
  unfold fuzzyMergeB
  rw [tokListMerge_symm]
  cases tokSubseqOf (tokensOf (normChars a)) (tokensOf (normChars b)) <;>
    cases tokSubseqOf (tokensOf (normChars b)) (tokensOf (normChars a)) <;>
    simp

theorem samePred_symm (cfg : Config) (a b : Span) :
    samePred cfg a b = samePred cfg b a := by
  unfold samePred
  by_cases hl : a.label = b.label
  · rw [decide_eq_true hl, decide_eq_true hl.symm]
    by_cases hf : cfg.fuzzy = 0
    · rw [if_pos hf, if_pos hf]
      by_cases hn : normChars a.text = normChars b.text
      · rw [decide_eq_true hn, decide_eq_true hn.symm]
      · rw [decide_eq_false hn, decide_eq_false (fun hc => hn hc.symm)]
    · rw [if_neg hf, if_neg hf, fuzzyMergeB_symm]
  · rw [decide_eq_false hl,
      decide_eq_false (show ¬b.label = a.label from fun hc => hl hc.symm)]
    simp

theorem idxPred_symm (cfg : Config) (accepted : List Span) (i j : Nat) :
    idxPred cfg accepted i j = idxPred cfg accepted j i := by
  unfold idxPred
  cases hi : accepted.get? i <;> cases hj : accepted.get? j <;> simp
  exact samePred_symm cfg _ _

/-! ## Lemmas about the memoized generator run -/

theorem lookup_append_some {β : Type} {l1 : List (Nat × β)} (l2 : List (Nat × β))
    {e : Nat} {d : β} (h : l1.lookup e = some d) :
    (l1 ++ l2).lookup e = some d := by
  induction l1 with
  | nil => simp [List.lookup] at h
  | cons p l ih =>
    rw [List.cons_append]
    cases he : (e == p.1) with
    | true =>
      simp only [List.lookup, he] at h ⊢
      exact h
    | false =>
      simp only [List.lookup, he] at h ⊢
      exact ih h

theorem lookup_append_new {β : Type} {l1 : List (Nat × β)} {e : Nat} (d : β)
    (h : l1.lookup e = none) :
    (l1 ++ [(e, d)]).lookup e = some d := by
  induction l1 with
  | nil => simp [List.lookup]
  | cons p l ih =>
    rw [List.cons_append]
    cases he : (e == p.1) with
    | true =>
      simp only [List.lookup, he] at h
      exact absurd h (by simp)
    | false =>
      simp only [List.lookup, he] at h ⊢
      exact ih h

theorem lookup_append_other {β : Type} {l1 : List (Nat × β)} {e e0 : Nat} (d : β)
    (h : e ≠ e0) :
    (l1 ++ [(e0, d)]).lookup e = l1.lookup e := by
  induction l1 with
  | nil =>
    simp only [List.nil_append, List.lookup]
    have : (e == e0) = false := by
      simpa using h
    simp [this]
  | cons p l ih =>
    rw [List.cons_append]
    cases he : (e == p.1) with
    | true =>
      simp only [List.lookup, he]
    | false =>
      simp only [List.lookup, he]
      exact ih

theorem runGenAux_length {σ : Type} (gen : σ → String → String → String × σ) :
    ∀ (ps : List (Span × Nat)) (st : GenSt σ),
      (runGenAux gen ps st).1.length = ps.length := by
  intro ps
  induction ps with
  | nil => intro st; rfl
  | cons q rest ih =>
    intro st
    obtain ⟨s, e⟩ := q
    cases hm : st.memo.lookup e <;> simp [runGenAux, hm, ih]

theorem runGenAux_lookup {σ : Type} (gen : σ → String → String → String × σ) :
    ∀ (ps : List (Span × Nat)) (st : GenSt σ) (e : Nat) (d : List Char),
      st.memo.lookup e = some d →
      ∀ (i : Nat) (hi : i < ps.length), (ps.get ⟨i, hi⟩).2 = e →
        (runGenAux gen ps st).1.getD i [] = d := by
  intro ps
  induction ps with
  | nil =>
    intro st e d _ i hi
    exact absurd hi (by simp)
  | cons q rest ih =>
    intro st e d hmem i hi hie
    obtain ⟨s, e0⟩ := q
    cases hm : st.memo.lookup e0 with
    | some d0 =>
      simp only [runGenAux, hm]
      cases i with
      | zero =>
        simp only [List.get] at hie
        subst hie
        rw [hmem] at hm
        injection hm with hm
        subst hm
        rfl
      | succ i0 =>
        have hi0 : i0 < rest.length := by simpa using hi
        have : (rest.get ⟨i0, hi0⟩).2 = e := hie
        simpa using ih st e d hmem i0 hi0 this
    | none =>
      simp only [runGenAux, hm]
      cases i with
      | zero =>
        simp only [List.get] at hie
        subst hie
        rw [hmem] at hm
        exact absurd hm (by simp)
      | succ i0 =>
        have hi0 : i0 < rest.length := by simpa using hi
        have hne : e ≠ e0 := by
          intro hc
          rw [hc] at hmem
          rw [hmem] at hm
          exact absurd hm (by simp)
        have hmem1 : (st.memo ++ [(e0, (gen st.inner s.label (String.mk s.text)).1.data)]).lookup e
            = some d := lookup_append_some _ hmem
        simpa using ih _ e d hmem1 i0 hi0 hie

theorem runGenAux_memoized {σ : Type} (gen : σ → String → String → String × σ) :
    ∀ (ps : List (Span × Nat)) (st : GenSt σ) (i j : Nat)
      (hi : i < ps.length) (hj : j < ps.length),
      i < j → (ps.get ⟨i, hi⟩).2 = (ps.get ⟨j, hj⟩).2 →
      (runGenAux gen ps st).1.getD i [] = (runGenAux gen ps st).1.getD j [] := by
  intro ps
  induction ps with
  | nil =>
    intro st i j hi
    exact absurd hi (by simp)
  | cons q rest ih =>
    intro st i j hi hj hij hee
    obtain ⟨s, e0⟩ := q
    cases i with
    | zero =>
      obtain ⟨j0, rfl⟩ : ∃ j0, j = j0 + 1 := ⟨j - 1, by omega⟩
      have hj0 : j0 < rest.length := by simpa using hj
      have hje : (rest.get ⟨j0, hj0⟩).2 = e0 := by
        simpa using hee.symm
      cases hm : st.memo.lookup e0 with
      | some d0 =>
        simp only [runGenAux, hm]
        have := runGenAux_lookup gen rest st e0 d0 hm j0 hj0 hje
        simpa using this.symm
      | none =>
        simp only [runGenAux, hm]
        have hmem1 : (st.memo ++ [(e0, (gen st.inner s.label (String.mk s.text)).1.data)]).lookup e0
            = some (gen st.inner s.label (String.mk s.text)).1.data :=
          lookup_append_new _ hm
        have := runGenAux_lookup gen rest
          ⟨st.memo ++ [(e0, (gen st.inner s.label (String.mk s.text)).1.data)],
            (gen st.inner s.label (String.mk s.text)).2⟩ e0 _ hmem1 j0 hj0 hje
        simpa using this.symm
    | succ i0 =>
      obtain ⟨j0, rfl⟩ : ∃ j0, j = j0 + 1 := ⟨j - 1, by omega⟩
      have hi0 : i0 < rest.length := by simpa using hi
      have hj0 : j0 < rest.length := by simpa using hj
      have hij0 : i0 < j0 := by omega
      have hee0 : (rest.get ⟨i0, hi0⟩).2 = (rest.get ⟨j0, hj0⟩).2 := by
        simpa using hee
      cases hm : st.memo.lookup e0 with
      | some d0 =>
        simp only [runGenAux, hm]
        simpa using ih st i0 j0 hi0 hj0 hij0 hee0
      | none =>
        simp only [runGenAux, hm]
        simpa using ih _ i0 j0 hi0 hj0 hij0 hee0

/-- Counter-format behaviour of the memoized run with the default
generator: an occurrence introducing a new entity displays as bracket,
label, underscore, counter, bracket, where the counter is one more than
the number of label-matching entity introductions so far. -/
theorem runGenAux_counter :
    ∀ (ps : List (Span × Nat)) (prev : List Nat) (memo : List (Nat × List Char))
      (c : List (String × Nat)) (cnt : String → Nat),
      (∀ e, memo.lookup e = none ↔ e ∉ prev) →
      (∀ L, (c.lookup L).getD 0 = cnt L) →
      ∀ (i : Nat) (hi : i < ps.length),
      (ps.get ⟨i, hi⟩).2 ∉ prev →
      (∀ k (hk : k < i), (ps.get ⟨k, by omega⟩).2 ≠ (ps.get ⟨i, hi⟩).2) →
      (runGenAux counterGen ps ⟨memo, c⟩).1.getD i [] =
        '[' :: (ps.get ⟨i, hi⟩).1.label.data ++
          '_' :: natDigits (cnt (ps.get ⟨i, hi⟩).1.label
            + newFirsts prev (ps.take i) (ps.get ⟨i, hi⟩).1.label + 1) ++ [']'] := by
  intro ps
  induction ps with
  | nil =>
    intro prev memo c cnt _ _ i hi
    exact absurd hi (by simp)
  | cons q rest ih =>
    intro prev memo c cnt hdom hcnt i hi hnew hfirst
    obtain ⟨s0, e0⟩ := q
    cases hm : memo.lookup e0 with
    | some d0 =>
      have he0 : e0 ∈ prev := by
        by_contra hc
        have := (hdom e0).mpr hc
        rw [hm] at this
        exact absurd this (by simp)
      simp only [runGenAux, hm]
      cases i with
      | zero => exact absurd he0 (by simpa using hnew)
      | succ i0 =>
        have hi0 : i0 < rest.length := by simpa using hi
        have h1 : (rest.get ⟨i0, hi0⟩).2 ∉ prev := by simpa using hnew
        have h2 : ∀ k (hk : k < i0), (rest.get ⟨k, by omega⟩).2 ≠ (rest.get ⟨i0, hi0⟩).2 := by
          intro k hk
          have := hfirst (k + 1) (by omega)
          simpa using this
        have hout := ih prev memo c cnt hdom hcnt i0 hi0 h1 h2
        rw [List.take_succ_cons, newFirsts, if_pos he0]
        simpa using hout
    | none =>
      have he0 : e0 ∉ prev := (hdom e0).mp hm
      simp only [runGenAux, hm, counterGen]
      cases i with
      | zero =>
        simp only [List.take_zero, newFirsts, List.getD_cons_zero]
        have : ((s0, e0) :: rest).get ⟨0, hi⟩ = (s0, e0) := rfl
        rw [this]
        simp only [String.data]
        rw [hcnt s0.label]
      | succ i0 =>
        have hi0 : i0 < rest.length := by simpa using hi
        have hne0 : (rest.get ⟨i0, hi0⟩).2 ≠ e0 := by
          intro hc
          apply hfirst 0 (by omega)
          simpa using hc.symm
        have h1 : (rest.get ⟨i0, hi0⟩).2 ∉ e0 :: prev := by
          intro hc
          rcases List.mem_cons.mp hc with hc | hc
          · exact hne0 hc
          · exact (by simpa using hnew : (rest.get ⟨i0, hi0⟩).2 ∉ prev) hc
        have h2 : ∀ k (hk : k < i0), (rest.get ⟨k, by omega⟩).2 ≠ (rest.get ⟨i0, hi0⟩).2 := by
          intro k hk
          have := hfirst (k + 1) (by omega)
          simpa using this
        have hdom1 : ∀ e,
            (memo ++ [(e0, (counterGen c s0.label (String.mk s0.text)).1.data)]).lookup e = none
              ↔ e ∉ e0 :: prev := by
          intro e
          by_cases he : e = e0
          · subst he
            rw [lookup_append_new _ hm]
            simp
          · rw [lookup_append_other _ he, hdom e]
            simp [he]
        have hcnt1 : ∀ L,
            (((s0.label, (c.lookup s0.label).getD 0 + 1) :: c).lookup L).getD 0 =
              (if s0.label = L then cnt L + 1 else cnt L) := by
          intro L
          cases hL : (L == s0.label) with
          | true =>
            have hLe : L = s0.label := eq_of_beq hL
            simp only [List.lookup, hL, Option.getD_some]
            rw [if_pos hLe.symm, hLe, hcnt s0.label]
          | false =>
            have hLe : ¬(s0.label = L) := fun hc => by simp [hc.symm] at hL
            simp only [List.lookup, hL]
            rw [if_neg hLe, hcnt L]
        have hout := ih (e0 :: prev)
          (memo ++ [(e0, (counterGen c s0.label (String.mk s0.text)).1.data)])
          ((s0.label, (c.lookup s0.label).getD 0 + 1) :: c)
          (fun L => if s0.label = L then cnt L + 1 else cnt L)
          hdom1 hcnt1 i0 hi0 h1 h2
        rw [List.take_succ_cons, newFirsts, if_neg he0]
        have hgoal : (runGenAux counterGen rest
            ⟨memo ++ [(e0, (counterGen c s0.label (String.mk s0.text)).1.data)],
              (s0.label, (c.lookup s0.label).getD 0 + 1) :: c⟩).1.getD i0 [] =
            '[' :: (rest.get ⟨i0, hi0⟩).1.label.data ++
              '_' :: natDigits ((if s0.label = (rest.get ⟨i0, hi0⟩).1.label
                  then cnt (rest.get ⟨i0, hi0⟩).1.label + 1
                  else cnt (rest.get ⟨i0, hi0⟩).1.label)
                + newFirsts (e0 :: prev) (rest.take i0) (rest.get ⟨i0, hi0⟩).1.label + 1)
              ++ [']'] := by
          simpa [counterGen] using hout
        have hnum : (if s0.label = (rest.get ⟨i0, hi0⟩).1.label
              then cnt (rest.get ⟨i0, hi0⟩).1.label + 1
              else cnt (rest.get ⟨i0, hi0⟩).1.label)
            + newFirsts (e0 :: prev) (rest.take i0) (rest.get ⟨i0, hi0⟩).1.label + 1 =
            cnt (rest.get ⟨i0, hi0⟩).1.label +
              ((if s0.label = (rest.get ⟨i0, hi0⟩).1.label then 1 else 0) +
                newFirsts (e0 :: prev) (rest.take i0) (rest.get ⟨i0, hi0⟩).1.label) + 1 := by
          by_cases hLL : s0.label = (rest.get ⟨i0, hi0⟩).1.label
          · rw [if_pos hLL, if_pos hLL]
            omega
          · rw [if_neg hLL, if_neg hLL]
            omega
        rw [hnum] at hgoal
        simpa [counterGen] using hgoal

/-! ## Pipeline-level helper lemmas -/

theorem pipelinePairs_length (cfg : Config) (t : List Char) :
    (pipelinePairs cfg t).length = (pipelineAccepted cfg t).length := by
  simp [pipelinePairs]

theorem pipelinePairs_get (cfg : Config) (t : List Char) (k : Nat)
    (hk : k < (pipelinePairs cfg t).length) :
    (pipelinePairs cfg t).get ⟨k, hk⟩ =
      ((pipelineAccepted cfg t).get ⟨k, by rw [← pipelinePairs_length cfg t]; exact hk⟩,
        eidOf (pipelineEids cfg t) k) := by
  have hk2 : k < (pipelineAccepted cfg t).length := by
    rw [← pipelinePairs_length cfg t]
    exact hk
  unfold pipelinePairs at hk ⊢
  rw [List.get_eq_getElem, List.getElem_zip]
  refine Prod.ext ?_ ?_
  · rw [List.get_eq_getElem]
  · simp

theorem keyOfE_lt {accepted : List Span} {x : Nat} (hx : x < accepted.length) :
    keyOfE accepted x =
      ((accepted.get ⟨x, hx⟩).label, normChars (accepted.get ⟨x, hx⟩).text) := by
  unfold keyOfE
  rw [List.get?_eq_get hx]

theorem consolidate_exact_pred (cfg : Config) (accepted : List Span)
    (hf : cfg.fuzzy = 0) :
    ∀ a b, idxPred cfg accepted a b = true → keyOfE accepted a = keyOfE accepted b := by
  intro a b h
  unfold idxPred at h
  cases ha : accepted.get? a with
  | none => rw [ha] at h; simp at h
  | some sa =>
    cases hb : accepted.get? b with
    | none => rw [ha, hb] at h; simp at h
    | some sb =>
      rw [ha, hb] at h
      simp only at h
      unfold samePred at h
      rw [if_pos hf, Bool.and_eq_true, decide_eq_true_eq, decide_eq_true_eq] at h
      unfold keyOfE
      rw [ha, hb]
      simp only
      rw [h.1, h.2]

theorem consolidate_exact_iff (cfg : Config) (accepted : List Span)
    (hf : cfg.fuzzy = 0) {i j : Nat}
    (hi : i < accepted.length) (hj : j < accepted.length) :
    eidOf (consolidate cfg accepted) i = eidOf (consolidate cfg accepted) j ↔
      keyOfE accepted i = keyOfE accepted j := by
  have hklen := consolidate_length cfg accepted
  have hkey := consolidate_key cfg accepted (keyOfE accepted)
    (consolidate_exact_pred cfg accepted hf)
  constructor
  · intro he
    have h1 := hkey i (by rw [hklen]; exact hi)
    have h2 := hkey j (by rw [hklen]; exact hj)
    rw [← h1, ← h2, he]
  · intro hk
    have hipred : ∀ x y, x < accepted.length → y < accepted.length →
        keyOfE accepted x = keyOfE accepted y → idxPred cfg accepted x y = true := by
      intro x y hx hy hxy
      unfold idxPred
      rw [List.get?_eq_get hx, List.get?_eq_get hy]
      simp only
      unfold samePred
      rw [if_pos hf, Bool.and_eq_true, decide_eq_true_eq, decide_eq_true_eq]
      rw [keyOfE_lt hx, keyOfE_lt hy] at hxy
      exact ⟨congrArg Prod.fst hxy, congrArg Prod.snd hxy⟩
    rcases lt_trichotomy i j with hij | rfl | hij
    · exact consolidate_merge cfg accepted hij hj (hipred i j hi hj hk)
    · rfl
    · exact (consolidate_merge cfg accepted hij hi (hipred j i hj hi hk.symm)).symm

/-! ## Claim C5 -/

/-- C5: placeholder generation is memoized per entity within one redact
run: occurrences with equal entity identifier render to equal display
texts; in exact mode the entity identifier is exactly the pair (label,
trimmed case-folded text); and an occurrence introducing a new entity
displays as bracket, label, underscore, counter, bracket, where the
counter is one more than the number of entities of that label introduced
earlier in the run, so distinct entities sharing a label receive distinct
sequential counters. -/
theorem C5_placeholder_memoized :
    (∀ (cfg : Config) (t : List Char) (i j : Nat)
        (hi : i < (pipelinePairs cfg t).length) (hj : j < (pipelinePairs cfg t).length),
        i < j →
        ((pipelinePairs cfg t).get ⟨i, hi⟩).2 = ((pipelinePairs cfg t).get ⟨j, hj⟩).2 →
        (pipelineDisplays counterInit counterGen cfg t).getD i [] =
          (pipelineDisplays counterInit counterGen cfg t).getD j []) ∧
    (∀ (cfg : Config) (t : List Char), cfg.fuzzy = 0 →
        ∀ i j : Nat, i < (pipelineAccepted cfg t).length →
          j < (pipelineAccepted cfg t).length →
        (eidOf (pipelineEids cfg t) i = eidOf (pipelineEids cfg t) j ↔
          keyOfE (pipelineAccepted cfg t) i = keyOfE (pipelineAccepted cfg t) j)) ∧
    (∀ (cfg : Config) (t : List Char) (i : Nat) (hi : i < (pipelinePairs cfg t).length),
        (∀ k (hk : k < i), ((pipelinePairs cfg t).get ⟨k, by omega⟩).2
            ≠ ((pipelinePairs cfg t).get ⟨i, hi⟩).2) →
        (pipelineDisplays counterInit counterGen cfg t).getD i [] =
          '[' :: ((pipelinePairs cfg t).get ⟨i, hi⟩).1.label.data ++
            '_' :: natDigits (newFirsts [] ((pipelinePairs cfg t).take i)
              ((pipelinePairs cfg t).get ⟨i, hi⟩).1.label + 1) ++ [']']) := by
  refine ⟨?_, ?_, ?_⟩
  · intro cfg t i j hi hj hij hee
    unfold pipelineDisplays
    exact runGenAux_memoized counterGen (pipelinePairs cfg t) _ i j hi hj hij hee
  · intro cfg t hf i j hi hj
    exact consolidate_exact_iff cfg (pipelineAccepted cfg t) hf hi hj
  · intro cfg t i hi hfirst
    unfold pipelineDisplays
    have h := runGenAux_counter (pipelinePairs cfg t) [] [] [] (fun _ => 0)
      (by intro e; simp [List.lookup]) (by intro L; simp [List.lookup])
      i hi (by simp) hfirst
    simpa using h

/-- C5 witness: the custom-word configuration on a document with two
occurrences of the word Bob: one entity, equal displays, and the first
occurrence carries counter 1. -/
theorem C5_witness :
    ((pipelineDisplays counterInit counterGen cfgCustom ("call Bob and Bob now").data).getD 0 [] =
      (pipelineDisplays counterInit counterGen cfgCustom ("call Bob and Bob now").data).getD 1 []) ∧
    ((pipelineDisplays counterInit counterGen cfgCustom ("call Bob and Bob now").data).getD 0 [] =
      '[' :: ((pipelinePairs cfgCustom ("call Bob and Bob now").data).get
          ⟨0, by decide⟩).1.label.data ++
        '_' :: natDigits (newFirsts [] ((pipelinePairs cfgCustom ("call Bob and Bob now").data).take 0)
          ((pipelinePairs cfgCustom ("call Bob and Bob now").data).get ⟨0, by decide⟩).1.label + 1)
        ++ [']']) := by
  constructor
  · exact C5_placeholder_memoized.1 cfgCustom ("call Bob and Bob now").data 0 1
      (by decide) (by decide) (by omega) (by decide)
  · exact C5_placeholder_memoized.2.2 cfgCustom ("call Bob and Bob now").data 0 (by decide)
      (fun k hk => absurd hk (by omega))

/-! ## Claim C6 -/

theorem consolidate_merge_any (cfg : Config) (accepted : List Span) {i j : Nat}
    (hi : i < accepted.length) (hj : j < accepted.length)
    (hp : idxPred cfg accepted i j = true) :
    eidOf (consolidate cfg accepted) i = eidOf (consolidate cfg accepted) j := by
  rcases lt_trichotomy i j with hij | rfl | hij
  · exact consolidate_merge cfg accepted hij hj hp
  · rfl
  · refine (consolidate_merge cfg accepted hij hi ?_).symm
    rw [idxPred_symm]
    exact hp

/-- C6: with fuzzy mode enabled, entity assignment is closed under
transitive merging: when span i merges with span j and span j merges with
span k, spans i and k receive one entity identifier, whether or not i and
k merge directly; the root of every cluster is its first-seen member and
supplies the canonical text; and on the documented example the three
Smith variants collapse to one placeholder value while the unrelated
name receives the next counter value. -/
theorem C6_fuzzy_transitive_clustering :
    (∀ (cfg : Config) (t : List Char), 1 ≤ cfg.fuzzy →
      ∀ i j k : Nat, i < (pipelineAccepted cfg t).length →
        j < (pipelineAccepted cfg t).length → k < (pipelineAccepted cfg t).length →
        idxPred cfg (pipelineAccepted cfg t) i j = true →
        idxPred cfg (pipelineAccepted cfg t) j k = true →
        eidOf (pipelineEids cfg t) i = eidOf (pipelineEids cfg t) k) ∧
    (∀ (cfg : Config) (t : List Char) (i : Nat)
        (hi : i < (pipelineAccepted cfg t).length),
        eidOf (pipelineEids cfg t) (eidOf (pipelineEids cfg t) i) =
            eidOf (pipelineEids cfg t) i ∧
          eidOf (pipelineEids cfg t) i ≤ i ∧
          (∀ j, j < eidOf (pipelineEids cfg t) i →
            eidOf (pipelineEids cfg t) j ≠ eidOf (pipelineEids cfg t) i) ∧
          canonicalText (pipelineAccepted cfg t) (pipelineEids cfg t) i =
            ((pipelineAccepted cfg t).get
              ⟨eidOf (pipelineEids cfg t) i, by
                have hle := ((consolidate_inv cfg (pipelineAccepted cfg t)) i
                  (by rw [consolidate_length]; exact hi)).1
                show eidOf (pipelineEids cfg t) i < (pipelineAccepted cfg t).length
                unfold pipelineEids
                omega⟩).text) ∧
    (redact cfgFuzzy exText =
      ("[PERSON_1], [PERSON_1], [PERSON_1], [PERSON_2]",
        [("[PERSON_1]", "John Smith", "PERSON"), ("[PERSON_1]", "Jon Smyth", "PERSON"),
          ("[PERSON_1]", "Johnny Smith", "PERSON"), ("[PERSON_2]", "Mary Johnson", "PERSON")]) ∧
      canonicalText (pipelineAccepted cfgFuzzy exText.data) (pipelineEids cfgFuzzy exText.data) 2
        = "John Smith".data) := by
  refine ⟨?_, ?_, by decide, by decide⟩
  · intro cfg t _hf i j k hi hj hk hij hjk
    have h1 := consolidate_merge_any cfg (pipelineAccepted cfg t) hi hj hij
    have h2 := consolidate_merge_any cfg (pipelineAccepted cfg t) hj hk hjk
    show eidOf (consolidate cfg (pipelineAccepted cfg t)) i
      = eidOf (consolidate cfg (pipelineAccepted cfg t)) k
    exact h1.trans h2
  · intro cfg t i hi
    have hinv := consolidate_inv cfg (pipelineAccepted cfg t)
    have hlen := consolidate_length cfg (pipelineAccepted cfg t)
    have hii := hinv i (by rw [hlen]; exact hi)
    refine ⟨hii.2, hii.1, ?_, ?_⟩
    · intro j hj hje
      have hjb : j < (consolidate cfg (pipelineAccepted cfg t)).length := by
        rw [hlen]
        show j < (pipelineAccepted cfg t).length
        have := hii.1
        unfold pipelineEids at hj
        omega
      have hjle := (hinv j hjb).1
      unfold pipelineEids at hje hj
      omega
    · unfold canonicalText
      have hroot : eidOf (pipelineEids cfg t) i < (pipelineAccepted cfg t).length := by
        have := hii.1
        unfold pipelineEids
        omega
      rw [List.get?_eq_get hroot]

/-- C6 witness: in the fuzzy example, John Smith merges with Johnny Smith
and Johnny Smith merges with Jon Smyth, so all three share one entity
identifier. -/
theorem C6_witness :
    eidOf (pipelineEids cfgFuzzy exText.data) 0 = eidOf (pipelineEids cfgFuzzy exText.data) 1 :=
  C6_fuzzy_transitive_clustering.1 cfgFuzzy exText.data (by decide) 0 2 1
    (by decide) (by decide) (by decide) (by decide) (by decide)

/-! ## Claim C7 -/

theorem properSub_length {a b : List Char} (h : ProperSub a b) : a.length < b.length := by
  obtain ⟨hne, u, v, huv⟩ := h
  have hlen : u.length + a.length + v.length = b.length := by
    rw [← huv]
    simp [List.length_append]
    omega
  by_contra hc
  have hu : u.length = 0 := by omega
  have hv : v.length = 0 := by omega
  rw [List.length_eq_zero] at hu hv
  subst hu hv
  simp at huv
  exact hne huv

/-- C7: restoration processes the mapping entries longest display text
first: in the processing order the display lengths never increase, hence
no entry processed earlier has a display that is a proper substring of a
later one, every entry is processed exactly once, and placeholders with
shared numeric prefixes such as PERSON 1 and PERSON 10 are substituted
correctly. -/
theorem C7_restore_order :
    (∀ m : List (String × String × String),
      (restoreOrder m).Pairwise (fun a b => b.1.data.length ≤ a.1.data.length)) ∧
    (∀ m : List (String × String × String),
      (restoreOrder m).Pairwise (fun a b => ¬ ProperSub a.1.data b.1.data)) ∧
    (∀ m : List (String × String × String), (restoreOrder m).Perm m) ∧
    (restore "[PERSON_1] met [PERSON_10]"
      [("[PERSON_1]", "Alice", "PERSON"), ("[PERSON_10]", "Bob", "PERSON")] = "Alice met Bob") := by
  have hsorted : ∀ m : List (String × String × String),
      (restoreOrder m).Pairwise (fun a b => b.1.data.length ≤ a.1.data.length) := by
    intro m
    unfold restoreOrder
    refine sortBy_pairwise ?_ ?_ ?_ m
    · intro a b h
      exact of_decide_eq_true h
    · intro a b h
      have := of_decide_eq_false h
      unfold lenGE at h
      have := of_decide_eq_false h
      omega
    · intro a b c h1 h2
      omega
  refine ⟨hsorted, ?_, ?_, by decide⟩
  · intro m
    refine (hsorted m).imp ?_
    intro a b hlen hsub
    have := properSub_length hsub
    omega
  · intro m
    exact sortBy_perm lenGE m

/-- C7 witness: a concrete instantiation of the ordering property on a
two-entry mapping whose display texts share a prefix. -/
theorem C7_witness :
    (restoreOrder [("[PERSON_1]", "Alice", "PERSON"), ("[PERSON_10]", "Bob", "PERSON")]).Pairwise
      (fun a b => ¬ ProperSub a.1.data b.1.data) :=
  C7_restore_order.2.1 [("[PERSON_1]", "Alice", "PERSON"), ("[PERSON_10]", "Bob", "PERSON")]

/-! ## Claim C8 -/

theorem foldl_replace_absent :
    ∀ (l : List (String × String × String)) (t : List Char),
      (∀ e ∈ l, findSub e.1.data t = none) →
      l.foldl (fun s e => replaceFirst s e.1.data e.2.1.data) t = t := by
  intro l
  induction l with
  | nil => intro t _; rfl
  | cons e rest ih =>
    intro t h
    rw [List.foldl_cons]
    have he : replaceFirst t e.1.data e.2.1.data = t := by
      unfold replaceFirst
      rw [h e (List.mem_cons_self e rest)]
    rw [he]
    exact ih t (fun x hx => h x (List.mem_cons_of_mem e hx))

/-- C8: restore is a total function; with a mapping none of whose display
texts occur in the text (for instance one that does not originate from the
paired redact call) it returns the text unchanged, every unmatched
placeholder left verbatim, and each single entry whose display is absent
leaves the text untouched, so only entries that are found are
substituted. -/
theorem C8_restore_robust :
    (∀ (txt : String) (m : List (String × String × String)),
      (∀ e ∈ m, findSub e.1.data txt.data = none) → restore txt m = txt) ∧
    (∀ (t pat rep : List Char), findSub pat t = none → replaceFirst t pat rep = t) ∧
    (restore "balance due [AMOUNT_1]" [("[PERSON_1]", "Alice", "PERSON")]
      = "balance due [AMOUNT_1]") := by
  refine ⟨?_, ?_, by decide⟩
  · intro txt m h
    unfold restore
    have hmem : ∀ e ∈ restoreOrder m, findSub e.1.data txt.data = none := by
      intro e he
      exact h e ((sortBy_perm lenGE m).mem_iff.mp he)
    rw [foldl_replace_absent _ _ hmem]
  · intro t pat rep h
    unfold replaceFirst
    rw [h]

/-- C8 witness: a mapping foreign to the text is returned verbatim. -/
theorem C8_witness :
    restore "hello world" [("[X]", "a", "L"), ("[YY]", "b", "L")] = "hello world" :=
  C8_restore_robust.1 "hello world" [("[X]", "a", "L"), ("[YY]", "b", "L")] (by decide)

/-! ## Claim C10 -/

theorem pipelineDisplays_length {σ : Type} (init : σ)
    (gen : σ → String → String → String × σ) (cfg : Config) (t : List Char) :
    (pipelineDisplays init gen cfg t).length = (pipelineAccepted cfg t).length := by
  unfold pipelineDisplays
  rw [runGenAux_length, pipelinePairs_length]

/-- C10: the placeholder-generation step is overridable without changing
any other stage: under an arbitrary generator of (label, original text)
with private state, the mapping records exactly the same original texts
and labels as the default run, the display texts are exactly the override
outputs, the rewritten text is the splice of the unchanged accepted spans
with the override displays, the default redact is one instance of the
parametric pipeline, and a concrete override produces its own template. -/
theorem C10_generator_override :
    (∀ (σ : Type) (init : σ) (gen : σ → String → String → String × σ)
        (cfg : Config) (txt : String),
      (redactWith init gen cfg txt).2.map (fun e => (e.2.1, e.2.2)) =
        (redact cfg txt).2.map (fun e => (e.2.1, e.2.2))) ∧
    (∀ (σ : Type) (init : σ) (gen : σ → String → String → String × σ)
        (cfg : Config) (txt : String),
      (redactWith init gen cfg txt).2.map (fun e => e.1.data) =
        pipelineDisplays init gen cfg txt.data) ∧
    (∀ (σ : Type) (init : σ) (gen : σ → String → String → String × σ)
        (cfg : Config) (txt : String),
      (redactWith init gen cfg txt).1 =
        String.mk (spliceAll txt.data
          ((pipelineAccepted cfg txt.data).zip (pipelineDisplays init gen cfg txt.data)))) ∧
    (redact = redactWith counterInit counterGen) ∧
    (redactWith counterInit customGen cfgCustom "call Bob and Bob now" =
      ("call <CUSTOM#1> and <CUSTOM#1> now", [("<CUSTOM#1>", "Bob", "CUSTOM"),
        ("<CUSTOM#1>", "Bob", "CUSTOM")])) := by
  have hparts : ∀ (σ : Type) (init : σ) (gen : σ → String → String → String × σ)
      (cfg : Config) (txt : String),
      (redactWith init gen cfg txt).2.map (fun e => (e.2.1, e.2.2)) =
        (pipelineAccepted cfg txt.data).map (fun s => (String.mk s.text, s.label)) := by
    intro σ init gen cfg txt
    unfold redactWith
    rw [List.map_map]
    have : ((fun e : String × String × String => (e.2.1, e.2.2)) ∘
        (fun p : Span × List Char => (String.mk p.2, String.mk p.1.text, p.1.label))) =
        ((fun s : Span => (String.mk s.text, s.label)) ∘ Prod.fst) := rfl
    rw [this, ← List.map_map]
    rw [List.map_fst_zip]
    rw [pipelineDisplays_length]
  refine ⟨?_, ?_, ?_, rfl, by decide⟩
  · intro σ init gen cfg txt
    rw [hparts]
    exact (hparts (List (String × Nat)) counterInit counterGen cfg txt).symm
  · intro σ init gen cfg txt
    unfold redactWith
    rw [List.map_map]
    have : ((fun e : String × String × String => e.1.data) ∘
        (fun p : Span × List Char => (String.mk p.2, String.mk p.1.text, p.1.label))) =
        Prod.snd := rfl
    rw [this]
    rw [List.map_snd_zip]
    rw [pipelineDisplays_length]
  · intro σ init gen cfg txt
    rfl

/-! ## Occurrence analysis for the round trip -/

theorem startsWith_append_self : ∀ (pat r : List Char), startsWith pat (pat ++ r) = true := by
  intro pat
  induction pat with
  | nil => intro r; rfl
  | cons a as ih =>
    intro r
    rw [List.cons_append, startsWith]
    simp [ih r]

theorem atomic_head {d : List Char} (hd : Atomic d) : ∃ dr, d = '[' :: dr := by
  obtain ⟨b, rfl, _, _⟩ := hd
  exact ⟨b ++ [']'], rfl⟩

theorem findSub_shift_open {d : List Char} (hd : ∃ dr, d = '[' :: dr) :
    ∀ (u s : List Char), '[' ∉ u →
      findSub d (u ++ s) = (findSub d s).map (· + u.length) := by
  obtain ⟨dr, rfl⟩ := hd
  intro u
  induction u with
  | nil =>
    intro s _
    simp
  | cons c u ih =>
    intro s hc
    have hcne : ¬(('[' : Char) = c) := fun h => hc (h ▸ List.mem_cons_self c u)
    rw [List.cons_append]
    have hsw : startsWith ('[' :: dr) (c :: (u ++ s)) = false := by
      simp only [startsWith]
      simp [hcne]
    simp only [findSub, hsw, Bool.false_eq_true, if_false]
    rw [ih s (fun h => hc (List.mem_cons_of_mem c h)), Option.map_map]
    have hfun : ((fun x : Nat => x + 1) ∘ (fun x : Nat => x + u.length)) =
        (fun x : Nat => x + (c :: u).length) := by
      funext x
      simp only [Function.comp, List.length_cons]
      omega
    rw [hfun]

theorem atomic_body_eq : ∀ (b b2 s : List Char), ']' ∉ b → ']' ∉ b2 →
    startsWith (b ++ [']']) (b2 ++ (']' :: s)) = true → b = b2 := by
  intro b
  induction b with
  | nil =>
    intro b2 s _ hb2 h
    cases b2 with
    | nil => rfl
    | cons c bs =>
      rw [List.nil_append, List.cons_append] at h
      simp only [startsWith, Bool.and_eq_true] at h
      have : (']' : Char) = c := of_decide_eq_true h.1
      exact absurd (this ▸ List.mem_cons_self c bs) hb2
  | cons x xs ih =>
    intro b2 s hb hb2 h
    cases b2 with
    | nil =>
      rw [List.cons_append, List.nil_append] at h
      simp only [startsWith, Bool.and_eq_true] at h
      have hx : x = ']' := of_decide_eq_true h.1
      have : (']' : Char) ∈ x :: xs := hx ▸ List.mem_cons_self x xs
      exact absurd this hb
    | cons y ys =>
      rw [List.cons_append, List.cons_append] at h
      simp only [startsWith, Bool.and_eq_true] at h
      have hxy : x = y := of_decide_eq_true h.1
      have hrec := ih ys s (fun hm => hb (List.mem_cons_of_mem x hm))
        (fun hm => hb2 (List.mem_cons_of_mem y hm)) h.2
      rw [hxy, hrec]

theorem atomic_ne_not_starts {d e : List Char} (hd : Atomic d) (he : Atomic e)
    (hne : d ≠ e) (s : List Char) :
    startsWith d (e ++ s) = false := by
  obtain ⟨b, rfl, hb1, hb2⟩ := hd
  obtain ⟨b2, rfl, hb21, hb22⟩ := he
  by_contra hc
  rw [Bool.not_eq_false] at hc
  rw [List.cons_append, List.cons_append] at hc
  simp only [startsWith, Bool.and_eq_true, List.append_eq] at hc
  have hform : (b2 ++ [']']) ++ s = b2 ++ (']' :: s) := by simp
  rw [hform] at hc
  have := atomic_body_eq b b2 s hb2 hb22 hc.2
  exact hne (by rw [this])

theorem findSub_self_append {d : List Char} (hd : Atomic d) (s : List Char) :
    findSub d (d ++ s) = some 0 := by
  have h := startsWith_append_self d s
  obtain ⟨b, rfl, _, _⟩ := hd
  simp only [List.cons_append, List.append_assoc] at h ⊢
  simp only [findSub, List.append_eq, List.append_assoc, h, if_true]

theorem findSub_shift_atomic {d e : List Char} (hd : Atomic d) (he : Atomic e)
    (hne : d ≠ e) (s : List Char) :
    findSub d (e ++ s) = (findSub d s).map (· + e.length) := by
  have hns := atomic_ne_not_starts hd he hne s
  have hhead := atomic_head hd
  obtain ⟨b2, he2, hb21, hb22⟩ := he
  subst he2
  simp only [List.cons_append, List.append_assoc, List.nil_append,
    List.singleton_append] at hns ⊢
  simp only [findSub, List.append_eq, List.append_assoc, List.nil_append,
    List.singleton_append, hns, Bool.false_eq_true, if_false]
  have hopen : '[' ∉ b2 ++ [']'] := by
    intro hm
    rcases List.mem_append.mp hm with hm | hm
    · exact hb21 hm
    · rw [List.mem_singleton] at hm
      exact absurd hm (by decide)
  have hsh := findSub_shift_open hhead (b2 ++ [']']) s hopen
  simp only [List.append_assoc, List.singleton_append] at hsh
  rw [hsh, Option.map_map]
  have hfun : ((fun x : Nat => x + 1) ∘ (fun x : Nat => x + (b2 ++ [']']).length)) =
      (fun x : Nat => x + ('[' :: (b2 ++ [']'])).length) := by
    funext x
    simp only [Function.comp, List.length_append, List.length_cons, List.length_singleton]
    omega
  rw [hfun]

theorem findSub_render {d : List Char} (hd : Atomic d) :
    ∀ ps : List Piece, WFPieces ps → findSub d (render ps) = posFirst d ps := by
  intro ps
  induction ps with
  | nil =>
    intro _
    obtain ⟨b, rfl, _, _⟩ := hd
    rfl
  | cons pc r ih =>
    intro hWF
    have hWFr : WFPieces r := fun x hx => hWF x (List.mem_cons_of_mem pc hx)
    cases pc with
    | plain p =>
      have hp : BracketFree p := hWF _ (List.mem_cons_self _ _)
      show findSub d (p ++ render r) = (posFirst d r).map (· + p.length)
      rw [findSub_shift_open (atomic_head hd) p (render r) hp.1, ih hWFr]
    | disp d0 o =>
      have hok := hWF _ (List.mem_cons_self _ _)
      by_cases hdd : d0 = d
      · subst hdd
        show findSub d0 (d0 ++ render r) = posFirst d0 (Piece.disp d0 o :: r)
        rw [findSub_self_append hd, posFirst, if_pos rfl]
      · show findSub d (d0 ++ render r) = posFirst d (Piece.disp d0 o :: r)
        rw [posFirst, if_neg hdd,
          findSub_shift_atomic hd hok.1 (fun hc => hdd hc.symm) (render r), ih hWFr]

/-! ## Replacement of one display inside the rendered text -/

theorem replaceFirst_none {t pat rep : List Char} (h : findSub pat t = none) :
    replaceFirst t pat rep = t := by
  unfold replaceFirst
  rw [h]

theorem replaceFirst_some {t pat rep : List Char} {i : Nat} (h : findSub pat t = some i) :
    replaceFirst t pat rep = t.take i ++ rep ++ t.drop (i + pat.length) := by
  unfold replaceFirst
  rw [h]

theorem replaceFirst_shift {d o u X : List Char}
    (hshift : findSub d (u ++ X) = (findSub d X).map (· + u.length)) :
    replaceFirst (u ++ X) d o = u ++ replaceFirst X d o := by
  cases hfs : findSub d X with
  | none =>
    have h2 : findSub d (u ++ X) = none := by
      rw [hshift, hfs]
      rfl
    rw [replaceFirst_none h2, replaceFirst_none hfs]
  | some i =>
    have h2 : findSub d (u ++ X) = some (u.length + i) := by
      rw [hshift, hfs]
      simp [Nat.add_comm]
    rw [replaceFirst_some h2, replaceFirst_some hfs]
    rw [List.take_append, show u.length + i + d.length = u.length + (i + d.length) by omega,
      List.drop_append]
    simp [List.append_assoc]

theorem replaceFirst_render {d : List Char} (hd : Atomic d) :
    ∀ ps : List Piece, WFPieces ps → ∀ o, firstO d ps = some o →
      replaceFirst (render ps) d o = render (replaceDisp d ps) := by
  intro ps
  induction ps with
  | nil =>
    intro _ o h
    simp [firstO] at h
  | cons pc r ih =>
    intro hWF o hfo
    have hWFr : WFPieces r := fun x hx => hWF x (List.mem_cons_of_mem pc hx)
    cases pc with
    | plain p =>
      have hp : BracketFree p := hWF _ (List.mem_cons_self _ _)
      simp only [firstO] at hfo
      show replaceFirst (p ++ render r) d o = render (Piece.plain p :: replaceDisp d r)
      have hshift := findSub_shift_open (atomic_head hd) p (render r) hp.1
      rw [replaceFirst_shift hshift, ih hWFr o hfo]
      rfl
    | disp d0 o0 =>
      by_cases hdd : d0 = d
      · subst hdd
        simp only [firstO, if_pos rfl] at hfo
        injection hfo with hfo
        subst hfo
        have hrd : replaceDisp d0 (Piece.disp d0 o0 :: r) = Piece.plain o0 :: r := by
          simp [replaceDisp]
        show replaceFirst (d0 ++ render r) d0 o0 =
          render (replaceDisp d0 (Piece.disp d0 o0 :: r))
        rw [hrd, replaceFirst_some (findSub_self_append hd (render r))]
        simp only [List.take_zero, Nat.zero_add, List.nil_append, List.drop_left]
        rfl
      · simp only [firstO, if_neg hdd] at hfo
        have hok := hWF _ (List.mem_cons_self _ _)
        have hshift := findSub_shift_atomic hd hok.1 (fun hc => hdd hc.symm) (render r)
        have hrd : replaceDisp d (Piece.disp d0 o0 :: r) =
            Piece.disp d0 o0 :: replaceDisp d r := by
          simp [replaceDisp, hdd]
        show replaceFirst (d0 ++ render r) d o = render (replaceDisp d (Piece.disp d0 o0 :: r))
        rw [hrd, replaceFirst_shift hshift, ih hWFr o hfo]
        rfl

/-! ## Bookkeeping of displays along the restoration -/

theorem firstO_mem {d o : List Char} :
    ∀ ps : List Piece, firstO d ps = some o → Piece.disp d o ∈ ps := by
  intro ps
  induction ps with
  | nil => intro h; simp [firstO] at h
  | cons pc r ih =>
    intro h
    cases pc with
    | plain p =>
      simp only [firstO] at h
      exact List.mem_cons_of_mem _ (ih h)
    | disp d0 o0 =>
      by_cases hdd : d0 = d
      · subst hdd
        simp only [firstO, if_pos rfl] at h
        injection h with h
        subst h
        exact List.mem_cons_self _ _
      · simp only [firstO, if_neg hdd] at h
        exact List.mem_cons_of_mem _ (ih h)

theorem wf_replaceDisp {d : List Char} :
    ∀ ps : List Piece, WFPieces ps → WFPieces (replaceDisp d ps) := by
  intro ps
  induction ps with
  | nil => intro h; exact h
  | cons pc r ih =>
    intro hWF
    have hWFr : WFPieces r := fun x hx => hWF x (List.mem_cons_of_mem pc hx)
    cases pc with
    | plain p =>
      intro x hx
      rcases List.mem_cons.mp (by simpa [replaceDisp] using hx) with rfl | hx2
      · exact hWF _ (List.mem_cons_self _ _)
      · exact ih hWFr x hx2
    | disp d0 o0 =>
      by_cases hdd : d0 = d
      · subst hdd
        intro x hx
        rcases List.mem_cons.mp (by simpa [replaceDisp] using hx) with rfl | hx2
        · exact (hWF _ (List.mem_cons_self _ _)).2
        · exact hWFr x hx2
      · intro x hx
        rcases List.mem_cons.mp (by simpa [replaceDisp, hdd] using hx) with rfl | hx2
        · exact hWF _ (List.mem_cons_self _ _)
        · exact ih hWFr x hx2

theorem renderO_replaceDisp {d : List Char} :
    ∀ ps : List Piece, renderO (replaceDisp d ps) = renderO ps := by
  intro ps
  induction ps with
  | nil => rfl
  | cons pc r ih =>
    cases pc with
    | plain p =>
      show renderO (Piece.plain p :: replaceDisp d r) = renderO (Piece.plain p :: r)
      rw [renderO, renderO, ih]
    | disp d0 o0 =>
      by_cases hdd : d0 = d
      · subst hdd
        have : replaceDisp d0 (Piece.disp d0 o0 :: r) = Piece.plain o0 :: r := by
          simp [replaceDisp]
        rw [this, renderO, renderO]
      · have : replaceDisp d (Piece.disp d0 o0 :: r) = Piece.disp d0 o0 :: replaceDisp d r := by
          simp [replaceDisp, hdd]
        rw [this, renderO, renderO, ih]

theorem disps_filter_step {d o : List Char} :
    ∀ (ps : List Piece) (tail : List (List Char × List Char)),
      (disps ps).filter (fun q => decide (q.1 = d)) = (d, o) :: tail →
      firstO d ps = some o ∧
      (disps (replaceDisp d ps)).filter (fun q => decide (q.1 = d)) = tail ∧
      (∀ e : List Char, e ≠ d →
        (disps (replaceDisp d ps)).filter (fun q => decide (q.1 = e)) =
          (disps ps).filter (fun q => decide (q.1 = e))) := by
  intro ps
  induction ps with
  | nil =>
    intro tail h
    simp [disps] at h
  | cons pc r ih =>
    intro tail h
    cases pc with
    | plain p =>
      simp only [disps] at h
      obtain ⟨h1, h2, h3⟩ := ih tail h
      refine ⟨h1, ?_, ?_⟩
      · simpa [replaceDisp, disps] using h2
      · intro e he
        have := h3 e he
        simpa [replaceDisp, disps] using this
    | disp d0 o0 =>
      by_cases hdd : d0 = d
      · subst hdd
        rw [disps, List.filter_cons] at h
        simp only [decide_eq_true_eq, if_pos rfl] at h
        injection h with hhead htail
        injection hhead with _ ho
        subst ho
        refine ⟨by simp [firstO], ?_, ?_⟩
        · have : replaceDisp d0 (Piece.disp d0 o0 :: r) = Piece.plain o0 :: r := by
            simp [replaceDisp]
          rw [this]
          simpa [disps] using htail
        · intro e he
          have : replaceDisp d0 (Piece.disp d0 o0 :: r) = Piece.plain o0 :: r := by
            simp [replaceDisp]
          rw [this]
          rw [disps, disps, List.filter_cons]
          simp only [decide_eq_true_eq]
          rw [if_neg (fun hc : d0 = e => he hc.symm)]
      · rw [disps, List.filter_cons] at h
        simp only [decide_eq_true_eq] at h
        rw [if_neg hdd] at h
        obtain ⟨h1, h2, h3⟩ := ih tail h
        have hrd : replaceDisp d (Piece.disp d0 o0 :: r) =
            Piece.disp d0 o0 :: replaceDisp d r := by
          simp [replaceDisp, hdd]
        refine ⟨by simpa [firstO, hdd] using h1, ?_, ?_⟩
        · rw [hrd, disps, List.filter_cons]
          simp only [decide_eq_true_eq]
          rw [if_neg hdd]
          exact h2
        · intro e he
          rw [hrd, disps, disps, List.filter_cons, List.filter_cons]
          simp only [decide_eq_true_eq]
          by_cases hde : d0 = e
          · rw [if_pos hde, if_pos hde, h3 e he]
          · rw [if_neg hde, if_neg hde, h3 e he]

theorem disps_nil_of_filters :
    ∀ ps : List Piece,
      (∀ d : List Char, (disps ps).filter (fun q => decide (q.1 = d)) = []) →
      disps ps = [] := by
  intro ps h
  cases hd : disps ps with
  | nil => rfl
  | cons q l =>
    have := h q.1
    rw [hd, List.filter_cons] at this
    simp at this

theorem render_eq_renderO_of_no_disps :
    ∀ ps : List Piece, disps ps = [] → render ps = renderO ps := by
  intro ps
  induction ps with
  | nil => intro _; rfl
  | cons pc r ih =>
    intro h
    cases pc with
    | plain p =>
      simp only [disps] at h
      show p ++ render r = p ++ renderO r
      rw [ih h]
    | disp d0 o0 =>
      simp [disps] at h

/-- Core restoration argument: when the displays of the piece list agree,
display class by display class, with the entries still to be processed,
the fold restores every original. -/
theorem restore_fold_exact :
    ∀ (es : List (String × String × String)) (ps : List Piece),
      WFPieces ps →
      (∀ d : List Char, (disps ps).filter (fun q => decide (q.1 = d)) =
        (es.map (fun e => (e.1.data, e.2.1.data))).filter (fun q => decide (q.1 = d))) →
      es.foldl (fun t e => replaceFirst t e.1.data e.2.1.data) (render ps) = renderO ps := by
  intro es
  induction es with
  | nil =>
    intro ps hWF hmatch
    rw [List.foldl_nil]
    apply render_eq_renderO_of_no_disps
    apply disps_nil_of_filters
    intro d
    simpa using hmatch d
  | cons e rest ih =>
    intro ps hWF hmatch
    have hm := hmatch e.1.data
    rw [List.map_cons, List.filter_cons] at hm
    simp only [decide_eq_true_eq, if_pos rfl] at hm
    obtain ⟨hfo, hstep, hother⟩ := disps_filter_step ps _ hm
    have hdmem := firstO_mem ps hfo
    have hatomic : Atomic e.1.data := (hWF _ hdmem).1
    rw [List.foldl_cons, replaceFirst_render hatomic ps hWF _ hfo]
    have hmatch2 : ∀ d : List Char,
        (disps (replaceDisp e.1.data ps)).filter (fun q => decide (q.1 = d)) =
          (rest.map (fun e => (e.1.data, e.2.1.data))).filter (fun q => decide (q.1 = d)) := by
      intro d
      by_cases hde : d = e.1.data
      · subst hde
        exact hstep
      · rw [hother d hde]
        have := hmatch d
        rw [List.map_cons, List.filter_cons] at this
        simp only [decide_eq_true_eq] at this
        rw [if_neg (fun hc : e.1.data = d => hde hc.symm)] at this
        exact this
    rw [ih (replaceDisp e.1.data ps) (wf_replaceDisp ps hWF) hmatch2, renderO_replaceDisp]

/-! ## Decomposition of the rewritten text into pieces -/

theorem slice_append_drop (t : List Char) {a b : Nat} (hab : a ≤ b) :
    slice t a b ++ t.drop b = t.drop a := by
  have hdd : (t.drop a).drop (b - a) = t.drop b := by
    rw [List.drop_drop]
    congr 1
    omega
  unfold slice
  rw [← hdd]
  exact List.take_append_drop _ _

theorem take_append_slice (t : List Char) {a b : Nat} (hab : a ≤ b) :
    t.take a ++ slice t a b = t.take b := by
  unfold slice
  rw [← List.take_add]
  congr 1
  omega

theorem spliceAll_eq_render (t : List Char) :
    ∀ (l : List (Span × List Char)) (pos : Nat), ChainOK t pos l →
      spliceAll t l = t.take pos ++ render (buildPieces t pos l) := by
  intro l
  induction l with
  | nil =>
    intro pos _
    show t = t.take pos ++ render [Piece.plain (t.drop pos)]
    simp [render, List.take_append_drop]
  | cons q rest ih =>
    obtain ⟨s, d⟩ := q
    intro pos hch
    obtain ⟨h1, h2, h3, h4⟩ := hch
    show splice (spliceAll t rest) s.start s.stop d =
      t.take pos ++ render (buildPieces t pos ((s, d) :: rest))
    rw [ih s.stop h4]
    unfold splice
    have htlen : (t.take s.stop).length = s.stop := List.length_take_of_le h3
    have htake : (t.take s.stop ++ render (buildPieces t s.stop rest)).take s.start
        = t.take s.start := by
      rw [List.take_append_eq_append_take, htlen,
        show s.start - s.stop = 0 by omega, List.take_zero, List.append_nil,
        List.take_take, min_eq_left (le_of_lt h2)]
    have hdrop : (t.take s.stop ++ render (buildPieces t s.stop rest)).drop s.stop
        = render (buildPieces t s.stop rest) := by
      rw [List.drop_append_eq_append_drop, htlen, Nat.sub_self, List.drop_zero]
      rw [show (t.take s.stop).drop s.stop = [] from
        List.drop_eq_nil_of_le (le_of_eq htlen)]
      rw [List.nil_append]
    rw [htake, hdrop]
    show t.take s.start ++ d ++ render (buildPieces t s.stop rest) =
      t.take pos ++ (slice t pos s.start ++ (d ++ render (buildPieces t s.stop rest)))
    rw [show t.take s.start = t.take pos ++ slice t pos s.start from
      (take_append_slice t h1).symm]
    simp [List.append_assoc]

theorem renderO_buildPieces (t : List Char) :
    ∀ (l : List (Span × List Char)) (pos : Nat), ChainOK t pos l →
      renderO (buildPieces t pos l) = t.drop pos := by
  intro l
  induction l with
  | nil =>
    intro pos _
    show renderO [Piece.plain (t.drop pos)] = t.drop pos
    simp [renderO]
  | cons q rest ih =>
    obtain ⟨s, d⟩ := q
    intro pos hch
    obtain ⟨h1, h2, h3, h4⟩ := hch
    show slice t pos s.start ++ (slice t s.start s.stop ++
      renderO (buildPieces t s.stop rest)) = t.drop pos
    rw [ih s.stop h4, slice_append_drop t (le_of_lt h2), slice_append_drop t h1]

theorem disps_buildPieces (t : List Char) :
    ∀ (l : List (Span × List Char)) (pos : Nat),
      disps (buildPieces t pos l) = l.map (fun q => (q.2, slice t q.1.start q.1.stop)) := by
  intro l
  induction l with
  | nil => intro pos; rfl
  | cons q rest ih =>
    obtain ⟨s, d⟩ := q
    intro pos
    show disps (Piece.plain (slice t pos s.start) :: Piece.disp d (slice t s.start s.stop) ::
      buildPieces t s.stop rest) = _
    rw [disps, disps, ih s.stop]
    rfl

theorem bracketFree_sub {t u : List Char} (hsub : ∀ c, c ∈ u → c ∈ t)
    (h : BracketFree t) : BracketFree u :=
  ⟨fun hm => h.1 (hsub _ hm), fun hm => h.2 (hsub _ hm)⟩

theorem bracketFree_slice {t : List Char} (h : BracketFree t) (a b : Nat) :
    BracketFree (slice t a b) := by
  refine bracketFree_sub ?_ h
  intro c hc
  unfold slice at hc
  exact List.mem_of_mem_drop (List.mem_of_mem_take hc)

theorem bracketFree_drop {t : List Char} (h : BracketFree t) (a : Nat) :
    BracketFree (t.drop a) := by
  refine bracketFree_sub ?_ h
  intro c hc
  exact List.mem_of_mem_drop hc

theorem wf_buildPieces (t : List Char) (hbf : BracketFree t) :
    ∀ (l : List (Span × List Char)) (pos : Nat), (∀ q ∈ l, Atomic q.2) →
      WFPieces (buildPieces t pos l) := by
  intro l
  induction l with
  | nil =>
    intro pos _ pc hpc
    rw [show buildPieces t pos [] = [Piece.plain (t.drop pos)] from rfl,
      List.mem_singleton] at hpc
    subst hpc
    exact bracketFree_drop hbf pos
  | cons q rest ih =>
    obtain ⟨s, d⟩ := q
    intro pos hat pc hpc
    rw [show buildPieces t pos ((s, d) :: rest) =
      Piece.plain (slice t pos s.start) :: Piece.disp d (slice t s.start s.stop) ::
        buildPieces t s.stop rest from rfl] at hpc
    rcases List.mem_cons.mp hpc with rfl | hpc
    · exact bracketFree_slice hbf pos s.start
    · rcases List.mem_cons.mp hpc with rfl | hpc
      · exact ⟨hat (s, d) (List.mem_cons_self _ _), bracketFree_slice hbf s.start s.stop⟩
      · exact ih s.stop (fun x hx => hat x (List.mem_cons_of_mem _ hx)) pc hpc

theorem chainOK_zip (t : List Char) :
    ∀ (l : List Span) (ds : List (List Char)) (pos : Nat),
      (∀ s ∈ l, s.start < s.stop ∧ s.stop ≤ t.length) →
      l.Pairwise (fun a b => a.start ≤ b.start) →
      l.Pairwise NoOv →
      (∀ s ∈ l, pos ≤ s.start) →
      ChainOK t pos (l.zip ds) := by
  intro l
  induction l with
  | nil =>
    intro ds pos _ _ _ _
    show ChainOK t pos []
    trivial
  | cons s l2 ih =>
    intro ds pos hval hsort hno hpos
    cases ds with
    | nil =>
      show ChainOK t pos []
      trivial
    | cons d ds2 =>
      have hv := hval s (List.mem_cons_self _ _)
      refine ⟨hpos s (List.mem_cons_self _ _), hv.1, hv.2, ?_⟩
      refine ih ds2 s.stop (fun x hx => hval x (List.mem_cons_of_mem _ hx))
        (List.pairwise_cons.mp hsort).2 (List.pairwise_cons.mp hno).2 ?_
      intro x hx
      have hst := (List.pairwise_cons.mp hsort).1 x hx
      have hn := (List.pairwise_cons.mp hno).1 x hx
      have hvx := hval x (List.mem_cons_of_mem _ hx)
      unfold NoOv overlapsB at hn
      rcases Bool.and_eq_false_iff.mp hn with h1 | h1 <;>
        rw [decide_eq_false_iff_not] at h1 <;> omega

/-! ## Facts about the accepted spans of a run -/

theorem scanAll_valid (cfg : Config) (t : List Char) :
    ∀ s ∈ scanAll cfg t, s.start < s.stop ∧ s.stop ≤ t.length := by
  intro s hs
  simp only [scanAll] at hs
  have h := (List.mem_filter.mp hs).2
  simp only [validB, Bool.and_eq_true, decide_eq_true_eq] at h
  exact h

theorem resolve_mem (spans : List Span) : ∀ x ∈ resolve spans, x ∈ spans := by
  intro x hx
  unfold resolve at hx
  rcases greedyPick_subset _ [] x hx with h | h
  · simp at h
  · rw [List.mem_map] at h
    obtain ⟨c, hc, rfl⟩ := h
    have hc2 : c ∈ spans.enum := (sortBy_perm candLE spans.enum).mem_iff.mp hc
    have := List.mem_map_of_mem Prod.snd hc2
    rw [List.enum_map_snd] at this
    exact this

theorem pipelineAccepted_mem (cfg : Config) (t : List Char) :
    ∀ s ∈ pipelineAccepted cfg t, s ∈ scanAll cfg t := by
  intro s hs
  unfold pipelineAccepted at hs
  exact resolve_mem _ s ((sortBy_perm startLE _).mem_iff.mp hs)

theorem pipelineAccepted_valid (cfg : Config) (t : List Char) :
    ∀ s ∈ pipelineAccepted cfg t, s.start < s.stop ∧ s.stop ≤ t.length :=
  fun s hs => scanAll_valid cfg t s (pipelineAccepted_mem cfg t s hs)

theorem pipelineAccepted_sorted (cfg : Config) (t : List Char) :
    (pipelineAccepted cfg t).Pairwise (fun a b => a.start ≤ b.start) := by
  unfold pipelineAccepted
  refine sortBy_pairwise ?_ ?_ ?_ _
  · intro a b h
    exact of_decide_eq_true h
  · intro a b h
    have := of_decide_eq_false h
    unfold startLE at h
    have := of_decide_eq_false h
    omega
  · intro a b c h1 h2
    omega

theorem scanAll_text (cfg : Config) (t : List Char) :
    ∀ s ∈ scanAll cfg t, s.text = slice t s.start s.stop := by
  intro s hs
  simp only [scanAll] at hs
  have hs2 := (List.mem_filter.mp hs).1
  rcases List.mem_append.mp hs2 with h | h
  · rcases List.mem_append.mp h with h | h
    · rw [List.mem_filterMap] at h
      obtain ⟨a, _, ha⟩ := h
      by_cases he : enabledB cfg a.label = true
      · rw [if_pos he] at ha
        injection ha with ha
        rw [← ha]
        rfl
      · rw [if_neg he] at ha
        exact absurd ha (by simp)
    · rw [List.mem_flatten] at h
      obtain ⟨l, hl, hml⟩ := h
      rw [List.mem_map] at hl
      obtain ⟨r, _, rfl⟩ := hl
      by_cases he : enabledB cfg r.label = true
      · rw [if_pos he] at hml
        rw [List.mem_map] at hml
        obtain ⟨q, _, hq⟩ := hml
        rw [← hq]
        rfl
      · rw [if_neg he] at hml
        simp at hml
  · rw [List.mem_flatten] at h
    obtain ⟨l, hl, hml⟩ := h
    rw [List.mem_map] at hl
    obtain ⟨w, _, rfl⟩ := hl
    rw [List.mem_map] at hml
    obtain ⟨i, _, hq⟩ := hml
    rw [← hq]
    rfl

/-! ## The default displays are atomic placeholders -/

theorem lookup_append_single_cases {β : Type} {l1 : List (Nat × β)} {e e0 : Nat} {d v : β}
    (h : (l1 ++ [(e0, d)]).lookup e = some v) : l1.lookup e = some v ∨ v = d := by
  cases hl : l1.lookup e with
  | some w =>
    rw [lookup_append_some _ hl] at h
    injection h with h
    refine Or.inl ?_
    rw [← h]
  | none =>
    by_cases he : e = e0
    · subst he
      rw [lookup_append_new _ hl] at h
      injection h with h
      exact Or.inr h.symm
    · rw [lookup_append_other _ he, hl] at h
      exact absurd h (by simp)

theorem runGenAux_out {σ : Type} (gen : σ → String → String → String × σ)
    (P : List Char → Prop) :
    ∀ (ps : List (Span × Nat)) (st : GenSt σ),
      (∀ (inner : σ) (s : Span) (e : Nat), (s, e) ∈ ps →
        P ((gen inner s.label (String.mk s.text)).1.data)) →
      (∀ (e : Nat) (d : List Char), st.memo.lookup e = some d → P d) →
      ∀ x ∈ (runGenAux gen ps st).1, P x := by
  intro ps
  induction ps with
  | nil =>
    intro st _ _ x hx
    simp [runGenAux] at hx
  | cons q rest ih =>
    intro st hg hmemo x hx
    obtain ⟨s, e⟩ := q
    cases hm : st.memo.lookup e with
    | some d0 =>
      simp only [runGenAux, hm] at hx
      rcases List.mem_cons.mp hx with rfl | hx2
      · exact hmemo e x hm
      · exact ih st (fun inner s2 e2 h2 => hg inner s2 e2 (List.mem_cons_of_mem _ h2))
          hmemo x hx2
    | none =>
      simp only [runGenAux, hm] at hx
      rcases List.mem_cons.mp hx with rfl | hx2
      · exact hg st.inner s e (List.mem_cons_self _ _)
      · refine ih _ (fun inner s2 e2 h2 => hg inner s2 e2 (List.mem_cons_of_mem _ h2))
          ?_ x hx2
        intro e2 d2 h2
        rcases lookup_append_single_cases h2 with h3 | h3
        · exact hmemo e2 d2 h3
        · subst h3
          exact hg st.inner s e (List.mem_cons_self _ _)

theorem natDigitsAux_no_brackets :
    ∀ (fuel n : Nat) (c : Char), c ∈ natDigitsAux fuel n → c ≠ '[' ∧ c ≠ ']' := by
  intro fuel
  induction fuel with
  | zero =>
    intro n c h
    simp [natDigitsAux] at h
  | succ f ih =>
    intro n c h
    by_cases hn : n < 10
    · rw [natDigitsAux, if_pos hn, List.mem_singleton] at h
      subst h
      interval_cases n <;> exact ⟨by decide, by decide⟩
    · rw [natDigitsAux, if_neg hn] at h
      rcases List.mem_append.mp h with h2 | h2
      · exact ih _ c h2
      · rw [List.mem_singleton] at h2
        subst h2
        have : n % 10 < 10 := Nat.mod_lt _ (by omega)
        interval_cases hm : (n % 10) <;> exact ⟨by decide, by decide⟩

theorem natDigits_no_brackets {n : Nat} {c : Char} (h : c ∈ natDigits n) :
    c ≠ '[' ∧ c ≠ ']' :=
  natDigitsAux_no_brackets _ _ _ h

theorem counterGen_atomic (c : List (String × Nat)) (lab orig : String)
    (hlab : BracketFree lab.data) :
    Atomic ((counterGen c lab orig).1.data) := by
  refine ⟨lab.data ++ '_' :: natDigits ((c.lookup lab).getD 0 + 1), ?_, ?_, ?_⟩
  · show '[' :: lab.data ++ '_' :: natDigits ((c.lookup lab).getD 0 + 1) ++ [']'] = _
    simp [List.cons_append, List.append_assoc]
  · intro hm
    rcases List.mem_append.mp hm with hm | hm
    · exact hlab.1 hm
    · rcases List.mem_cons.mp hm with hm | hm
      · exact absurd hm (by decide)
      · exact (natDigits_no_brackets hm).1 rfl
  · intro hm
    rcases List.mem_append.mp hm with hm | hm
    · exact hlab.2 hm
    · rcases List.mem_cons.mp hm with hm | hm
      · exact absurd hm (by decide)
      · exact (natDigits_no_brackets hm).2 rfl

theorem displays_atomic (cfg : Config) (t : List Char)
    (hlab : ∀ s ∈ pipelineAccepted cfg t, BracketFree s.label.data) :
    ∀ d ∈ pipelineDisplays counterInit counterGen cfg t, Atomic d := by
  unfold pipelineDisplays
  refine runGenAux_out counterGen Atomic (pipelinePairs cfg t) _ ?_ ?_
  · intro inner s e hmem
    have hsmem : s ∈ pipelineAccepted cfg t := by
      unfold pipelinePairs at hmem
      exact (List.of_mem_zip hmem).1
    exact counterGen_atomic inner s.label _ (hlab s hsmem)
  · intro e d h
    simp [List.lookup] at h

/-! ## Claim C1 -/

theorem restoreOrder_filter_display (m : List (String × String × String)) (d : List Char) :
    (restoreOrder m).filter (fun e => decide (e.1.data = d)) =
      m.filter (fun e => decide (e.1.data = d)) := by
  unfold restoreOrder
  exact @sortBy_filter_key (String × String × String)
    (fun e => e.1.data.length) (fun e => decide (e.1.data = d)) d.length
    (fun x hx => by
      have hx2 : x.1.data = d := of_decide_eq_true hx
      show x.1.data.length = d.length
      rw [hx2]) m

/-- C1 counterexample: a document that already contains the placeholder
text CUSTOM 1 next to the sensitive word Bob does not restore to itself,
because the mapping records no positions and restoration finds the
literal placeholder first. -/
theorem C1_roundtrip_counterexample :
    restore (redact cfgCustom "[CUSTOM_1] Bob").1 (redact cfgCustom "[CUSTOM_1] Bob").2
      ≠ "[CUSTOM_1] Bob" := by decide

/-- C1 amended: the round trip is exact for every configuration and every
document that contains no square bracket, provided the labels of the
accepted spans are bracket-free (as all built-in labels are), so that the
generated placeholders are the only bracketed segments of the redacted
text. -/
theorem C1_roundtrip_amended :
    ∀ (cfg : Config) (txt : String),
      BracketFree txt.data →
      (∀ s ∈ pipelineAccepted cfg txt.data, BracketFree s.label.data) →
      restore (redact cfg txt).1 (redact cfg txt).2 = txt := by
  intro cfg txt hbf hlab
  have hat : ∀ q ∈ (pipelineAccepted cfg txt.data).zip
      (pipelineDisplays counterInit counterGen cfg txt.data), Atomic q.2 := by
    intro q hq
    exact displays_atomic cfg txt.data hlab q.2 (List.of_mem_zip hq).2
  have hchain : ChainOK txt.data 0 ((pipelineAccepted cfg txt.data).zip
      (pipelineDisplays counterInit counterGen cfg txt.data)) :=
    chainOK_zip txt.data _ _ 0 (pipelineAccepted_valid cfg txt.data)
      (pipelineAccepted_sorted cfg txt.data) (pipelineAccepted_pairwise cfg txt.data)
      (fun s _ => Nat.zero_le _)
  have hWF : WFPieces (buildPieces txt.data 0 ((pipelineAccepted cfg txt.data).zip
      (pipelineDisplays counterInit counterGen cfg txt.data))) :=
    wf_buildPieces txt.data hbf _ 0 hat
  have hred : (redact cfg txt).1.data = render (buildPieces txt.data 0
      ((pipelineAccepted cfg txt.data).zip
        (pipelineDisplays counterInit counterGen cfg txt.data))) := by
    show spliceAll txt.data ((pipelineAccepted cfg txt.data).zip
      (pipelineDisplays counterInit counterGen cfg txt.data)) = _
    rw [spliceAll_eq_render txt.data _ 0 hchain, List.take_zero, List.nil_append]
  have hdisp : disps (buildPieces txt.data 0 ((pipelineAccepted cfg txt.data).zip
      (pipelineDisplays counterInit counterGen cfg txt.data))) =
      ((pipelineAccepted cfg txt.data).zip
        (pipelineDisplays counterInit counterGen cfg txt.data)).map
          (fun q => (q.2, q.1.text)) := by
    rw [disps_buildPieces]
    apply List.map_congr_left
    intro q hq
    have hqm : q.1 ∈ pipelineAccepted cfg txt.data := (List.of_mem_zip hq).1
    have htext := scanAll_text cfg txt.data q.1 (pipelineAccepted_mem _ _ _ hqm)
    rw [htext]
  have hm2 : ((redact cfg txt).2).map (fun e => (e.1.data, e.2.1.data)) =
      ((pipelineAccepted cfg txt.data).zip
        (pipelineDisplays counterInit counterGen cfg txt.data)).map
          (fun q => (q.2, q.1.text)) := by
    show (((pipelineAccepted cfg txt.data).zip
        (pipelineDisplays counterInit counterGen cfg txt.data)).map
          (fun p => (String.mk p.2, String.mk p.1.text, p.1.label))).map
            (fun e => (e.1.data, e.2.1.data)) = _
    rw [List.map_map]
    rfl
  have hmatch : ∀ d : List Char,
      (disps (buildPieces txt.data 0 ((pipelineAccepted cfg txt.data).zip
        (pipelineDisplays counterInit counterGen cfg txt.data)))).filter
          (fun q => decide (q.1 = d)) =
        ((restoreOrder (redact cfg txt).2).map
          (fun e => (e.1.data, e.2.1.data))).filter (fun q => decide (q.1 = d)) := by
    intro d
    have hpush : ((restoreOrder (redact cfg txt).2).map
        (fun e => (e.1.data, e.2.1.data))).filter (fun q => decide (q.1 = d)) =
        ((restoreOrder (redact cfg txt).2).filter
          (fun e => decide (e.1.data = d))).map (fun e => (e.1.data, e.2.1.data)) :=
      List.filter_map _ _
    have hpush2 : (((redact cfg txt).2).map
        (fun e => (e.1.data, e.2.1.data))).filter (fun q => decide (q.1 = d)) =
        (((redact cfg txt).2).filter
          (fun e => decide (e.1.data = d))).map (fun e => (e.1.data, e.2.1.data)) :=
      List.filter_map _ _
    rw [hdisp, ← hm2, hpush, restoreOrder_filter_display, ← hpush2]
  have hfold := restore_fold_exact (restoreOrder (redact cfg txt).2)
    (buildPieces txt.data 0 ((pipelineAccepted cfg txt.data).zip
      (pipelineDisplays counterInit counterGen cfg txt.data))) hWF hmatch
  show String.mk ((restoreOrder (redact cfg txt).2).foldl
    (fun t e => replaceFirst t e.1.data e.2.1.data) (redact cfg txt).1.data) = txt
  rw [hred, hfold, renderO_buildPieces txt.data _ 0 hchain, List.drop_zero]

/-- C1 witness: the amended round trip at a concrete bracket-free
document under the custom-word configuration. -/
theorem C1_roundtrip_witness :
    restore (redact cfgCustom "call Bob and Bob now").1
      (redact cfgCustom "call Bob and Bob now").2 = "call Bob and Bob now" :=
  C1_roundtrip_amended cfgCustom "call Bob and Bob now" (by decide) (by decide)

end Redact
